import Mathlib

/-!
# WebhookPush: formal model of the chunking pipeline, dispatch queue,
# rate limiter and host allow-list

This file shallowly embeds the core of the WebhookPush backend
(`src/handlers.rs`, `src/queue.rs`, `src/rate_limiter.rs`, `src/models.rs`)
and proves or refutes the specification claims about it.

Byte strings are modelled as `List Nat` whose members are byte values.
Machine integers are modelled as `Nat`/`Int`; the source's saturating
operations (`u64::saturating_add`, `u32::saturating_add`,
`usize::saturating_sub`) are modelled explicitly.
-/

/-- Bytes of an ASCII string literal (used for the fixed JSON punctuation
and for the `WHP1` framing magic). -/
def ascii (s : String) : List Nat := s.data.map Char.toNat

/-- Saturating 64-bit addition, the model of `u64::saturating_add`. -/
def satAdd64 (a b : Nat) : Nat := min (a + b) (2 ^ 64 - 1)

/-- Saturating 32-bit addition, the model of `u32::saturating_add`. -/
def satAdd32 (a b : Nat) : Nat := min (a + b) (2 ^ 32 - 1)

/-- Big-endian byte string of `n`, `k` bytes wide (`to_be_bytes`).
Values are truncated modulo `2 ^ (8 * k)` exactly as the machine type is. -/
def beBytes : Nat → Nat → List Nat
  | 0, _ => []
  | k + 1, n => n / 256 ^ k % 256 :: beBytes k n

/-- Big-endian read of a byte string (`from_be_bytes`). -/
def fromBe (l : List Nat) : Nat := l.foldl (fun acc b => acc * 256 + b) 0

theorem beBytes_length (k n : Nat) : (beBytes k n).length = k := by
  induction k generalizing n with
  | zero => rfl
  | succ k ih => simp [beBytes, ih]

theorem beBytes_lt (k n : Nat) : ∀ b ∈ beBytes k n, b < 256 := by
  induction k generalizing n with
  | zero => simp [beBytes]
  | succ k ih =>
    intro b hb
    simp only [beBytes, List.mem_cons] at hb
    rcases hb with h | h
    · subst h
      exact Nat.mod_lt _ (by norm_num)
    · exact ih n b h

theorem fromBe_cons (b : Nat) (l : List Nat) :
    fromBe (b :: l) = b * 256 ^ l.length + fromBe l := by
  have aux : ∀ (l : List Nat) (acc : Nat),
      l.foldl (fun acc b => acc * 256 + b) acc =
        acc * 256 ^ l.length + l.foldl (fun acc b => acc * 256 + b) 0 := by
    intro l
    induction l with
    | nil => simp
    | cons x xs ih =>
      intro acc
      simp only [List.foldl_cons, List.length_cons]
      rw [ih (acc * 256 + x), ih (0 * 256 + x)]
      ring
  simp only [fromBe, List.foldl_cons]
  rw [aux l (0 * 256 + b)]
  ring

theorem fromBe_beBytes (k n : Nat) : fromBe (beBytes k n) = n % 256 ^ k := by
  induction k generalizing n with
  | zero => simp [beBytes, fromBe, Nat.mod_one]
  | succ k ih =>
    rw [beBytes, fromBe_cons, beBytes_length, ih]
    have h : n % (256 ^ k * 256) = n % 256 ^ k + 256 ^ k * (n / 256 ^ k % 256) :=
      Nat.mod_mul ..
    rw [pow_succ, h]
    ring

/-- Two's-complement view of an `i64` as an unsigned 64-bit value
(the bytes `i64::to_be_bytes` writes). -/
def i64ToU64 (sa : Int) : Nat := (sa % (2 ^ 64 : Int)).toNat

/-- Signed reading of an unsigned 64-bit value (`i64::from_be_bytes`). -/
def u64ToI64 (m : Nat) : Int :=
  if m < 2 ^ 63 then (m : Int) else (m : Int) - 2 ^ 64

theorem i64ToU64_lt (sa : Int) : i64ToU64 sa < 2 ^ 64 := by
  have h1 : (0 : Int) < 2 ^ 64 := by positivity
  have h2 := Int.emod_lt_of_pos sa h1
  have h3 := Int.emod_nonneg sa (ne_of_gt h1)
  simp only [i64ToU64]
  omega

theorem i64_roundtrip (sa : Int) (h1 : -(2 ^ 63) ≤ sa) (h2 : sa < 2 ^ 63) :
    u64ToI64 (i64ToU64 sa) = sa := by
  simp only [u64ToI64, i64ToU64]
  split <;> omega

/-- Decimal digit bytes of `n`, most significant first, with an explicit
fuel argument (the loop runs at most `fuel + 1` divisions; `decBytes`
supplies enough fuel, so the result is the exact decimal representation
`itoa`/`serde_json` writes for an unsigned integer). -/
def decBytesGo : Nat → Nat → List Nat
  | 0, n => [48 + n % 10]
  | f + 1, n => if n < 10 then [48 + n] else decBytesGo f (n / 10) ++ [48 + n % 10]

/-- Decimal digit bytes of `n` (the serialized form of a `usize` field). -/
def decBytes (n : Nat) : List Nat := decBytesGo n n

theorem decBytesGo_length (f n : Nat) (h : n ≤ f) :
    (decBytesGo f n).length = Nat.log 10 n + 1 := by
  induction f generalizing n with
  | zero =>
    have : n = 0 := by omega
    subst this
    simp [decBytesGo, Nat.log_zero_right]
  | succ f ih =>
    rw [show decBytesGo (f + 1) n =
        if n < 10 then [48 + n] else decBytesGo f (n / 10) ++ [48 + n % 10] from rfl]
    by_cases hn : n < 10
    · simp [hn, Nat.log_of_lt hn]
    · have hrec : n / 10 ≤ f := by
        have : n / 10 < n := Nat.div_lt_self (by omega) (by norm_num)
        omega
      have hlog : Nat.log 10 n = Nat.log 10 (n / 10) + 1 :=
        Nat.log_of_one_lt_of_le (by norm_num) (by omega)
      rw [if_neg hn, List.length_append, ih _ hrec, hlog]
      simp

theorem decBytes_length (n : Nat) : (decBytes n).length = Nat.log 10 n + 1 :=
  decBytesGo_length n n le_rfl

theorem decBytes_length_mono {m n : Nat} (h : m ≤ n) :
    (decBytes m).length ≤ (decBytes n).length := by
  rw [decBytes_length, decBytes_length]
  exact Nat.add_le_add_right (Nat.log_mono_right h) 1

theorem decBytes_length_succ_le (n : Nat) :
    (decBytes (n + 1)).length ≤ (decBytes n).length + 1 := by
  rw [decBytes_length, decBytes_length]
  rcases Nat.eq_zero_or_pos n with h | h
  · subst h; simp [Nat.log_one_right, Nat.log_zero_right]
  · have h1 : n + 1 ≤ n * 10 := by omega
    have h2 : Nat.log 10 (n + 1) ≤ Nat.log 10 (n * 10) := Nat.log_mono_right h1
    have h3 : Nat.log 10 (n * 10) = Nat.log 10 n + 1 :=
      Nat.log_mul_base (by norm_num) (by omega)
    omega

theorem decBytes_length_ge_five {n : Nat} (h : 10000 ≤ n) :
    5 ≤ (decBytes n).length := by
  rw [decBytes_length]
  have : (10 : Nat) ^ 4 ≤ n := by norm_num; omega
  have h4 : 4 ≤ Nat.log 10 n := (Nat.pow_le_iff_le_log (by norm_num) (by omega)).mp this
  omega

/-- JSON string escaping of one byte, exactly as `serde_json` escapes the
characters of a Rust string: quote and backslash become two-byte escapes,
the five short control escapes are two bytes, remaining control characters
become six-byte `\u00XX` escapes (lowercase hex), and every other byte is
passed through. -/
def escByte (b : Nat) : List Nat :=
  if b = 34 then [92, 34]
  else if b = 92 then [92, 92]
  else if b = 8 then [92, 98]
  else if b = 9 then [92, 116]
  else if b = 10 then [92, 110]
  else if b = 12 then [92, 102]
  else if b = 13 then [92, 114]
  else if b < 32 then
    [92, 117, 48, 48,
      (if b / 16 < 10 then 48 + b / 16 else 87 + b / 16),
      (if b % 16 < 10 then 48 + b % 16 else 87 + b % 16)]
  else [b]

/-- JSON string escaping of a byte string. -/
def escString (s : List Nat) : List Nat := (s.map escByte).flatten

theorem escString_nil : escString [] = [] := rfl

theorem escString_cons (b : Nat) (s : List Nat) :
    escString (b :: s) = escByte b ++ escString s := by
  simp [escString]

theorem escString_replicate_65 (n : Nat) :
    escString (List.replicate n 65) = List.replicate n 65 := by
  induction n with
  | zero => rfl
  | succ n ih =>
    rw [List.replicate_succ, escString_cons, ih]
    rfl

/-- Byte value of the standard base64 alphabet character for a sextet. -/
def b64Byte (n : Nat) : Nat :=
  if n < 26 then 65 + n
  else if n < 52 then 97 + (n - 26)
  else if n < 62 then 48 + (n - 52)
  else if n = 62 then 43
  else 47

/-- Sextet value of a base64 alphabet byte, `none` outside the alphabet. -/
def b64Val (b : Nat) : Option Nat :=
  if 65 ≤ b ∧ b ≤ 90 then some (b - 65)
  else if 97 ≤ b ∧ b ≤ 122 then some (b - 97 + 26)
  else if 48 ≤ b ∧ b ≤ 57 then some (b - 48 + 52)
  else if b = 43 then some 62
  else if b = 47 then some 63
  else none

theorem b64Val_b64Byte {n : Nat} (h : n < 64) : b64Val (b64Byte n) = some n := by
  interval_cases n <;> rfl

theorem b64Byte_ne_61 {n : Nat} (h : n < 64) : b64Byte n ≠ 61 := by
  interval_cases n <;> simp [b64Byte]

/-- Standard base64 encoding with padding, the model of `base64::encode`.
Input is a byte string, output is the byte string of the base64 text. -/
def base64Encode : List Nat → List Nat
  | [] => []
  | [a] => [b64Byte (a / 4), b64Byte (a % 4 * 16), 61, 61]
  | [a, b] => [b64Byte (a / 4), b64Byte (a % 4 * 16 + b / 16), b64Byte (b % 16 * 4), 61]
  | a :: b :: c :: rest =>
    b64Byte (a / 4) :: b64Byte (a % 4 * 16 + b / 16) ::
      b64Byte (b % 16 * 4 + c / 64) :: b64Byte (c % 64) :: base64Encode rest

/-- Standard base64 decoding with padding; used to state the reassembly
claim about the envelopes' `data` fields. -/
def base64Decode : List Nat → Option (List Nat)
  | [] => some []
  | a :: b :: c :: d :: rest =>
    match b64Val a, b64Val b with
    | some s0, some s1 =>
      if c = 61 then
        if d = 61 ∧ rest = [] then some [s0 * 4 + s1 / 16] else none
      else
        match b64Val c with
        | some s2 =>
          if d = 61 then
            if rest = [] then some [s0 * 4 + s1 / 16, s1 % 16 * 16 + s2 / 4] else none
          else
            match b64Val d, base64Decode rest with
            | some s3, some tail =>
              some ((s0 * 4 + s1 / 16) :: (s1 % 16 * 16 + s2 / 4) :: (s2 % 4 * 64 + s3) :: tail)
            | _, _ => none
        | none => none
    | _, _ => none
  | _ => none

theorem base64Encode_length (l : List Nat) :
    (base64Encode l).length = 4 * ((l.length + 2) / 3) := by
  have H : ∀ (n : Nat) (l : List Nat), l.length ≤ n →
      (base64Encode l).length = 4 * ((l.length + 2) / 3) := by
    intro n
    induction n with
    | zero =>
      intro l h
      have : l = [] := List.eq_nil_of_length_eq_zero (by omega)
      subst this
      rfl
    | succ n ih =>
      intro l h
      match l with
      | [] => rfl
      | [a] => simp [base64Encode]
      | [a, b] => simp [base64Encode]
      | a :: b :: c :: rest =>
        have hr : rest.length ≤ n := by
          simp only [List.length_cons] at h
          omega
        simp only [base64Encode, List.length_cons, ih rest hr]
        omega
  exact H l.length l le_rfl

theorem base64_roundtrip (l : List Nat) (hl : ∀ b ∈ l, b < 256) :
    base64Decode (base64Encode l) = some l := by
  have H : ∀ (n : Nat) (l : List Nat), l.length ≤ n → (∀ b ∈ l, b < 256) →
      base64Decode (base64Encode l) = some l := by
    intro n
    induction n with
    | zero =>
      intro l h _
      have : l = [] := List.eq_nil_of_length_eq_zero (by omega)
      subst this
      rfl
    | succ n ih =>
      intro l h hb
      match l with
      | [] => rfl
      | [a] =>
        have ha : a < 256 := hb a (by simp)
        have h0 : a / 4 < 64 := by omega
        have h1 : a % 4 * 16 < 64 := by
          have := Nat.mod_lt a (y := 4) (by norm_num)
          omega
        simp only [base64Encode, base64Decode, b64Val_b64Byte h0, b64Val_b64Byte h1]
        simp only [if_pos rfl, and_self, reduceIte, Option.some.injEq, List.cons.injEq, and_true]
        omega
      | [a, b] =>
        have ha : a < 256 := hb a (by simp)
        have hbb : b < 256 := hb b (by simp)
        have h0 : a / 4 < 64 := by omega
        have h1 : a % 4 * 16 + b / 16 < 64 := by
          have := Nat.mod_lt a (y := 4) (by norm_num)
          omega
        have h2 : b % 16 * 4 < 64 := by
          have := Nat.mod_lt b (y := 16) (by norm_num)
          omega
        simp only [base64Encode, base64Decode, b64Val_b64Byte h0, b64Val_b64Byte h1,
          b64Val_b64Byte h2]
        rw [if_neg (b64Byte_ne_61 h2)]
        simp only [if_pos rfl, reduceIte, Option.some.injEq, List.cons.injEq, and_true]
        exact ⟨by omega, by omega⟩
      | a :: b :: c :: rest =>
        have ha : a < 256 := hb a (by simp)
        have hbb : b < 256 := hb b (by simp)
        have hc : c < 256 := hb c (by simp)
        have h0 : a / 4 < 64 := by omega
        have h1 : a % 4 * 16 + b / 16 < 64 := by
          have := Nat.mod_lt a (y := 4) (by norm_num)
          omega
        have h2 : b % 16 * 4 + c / 64 < 64 := by
          have := Nat.mod_lt b (y := 16) (by norm_num)
          omega
        have h3 : c % 64 < 64 := Nat.mod_lt c (by norm_num)
        have hr : rest.length ≤ n := by
          simp only [List.length_cons] at h
          omega
        have hbr : ∀ x ∈ rest, x < 256 := fun x hx => hb x (by simp [hx])
        simp only [base64Encode, base64Decode, b64Val_b64Byte h0, b64Val_b64Byte h1,
          b64Val_b64Byte h2, b64Val_b64Byte h3, ih rest hr hbr]
        rw [if_neg (b64Byte_ne_61 h2), if_neg (b64Byte_ne_61 h3)]
        simp only [Option.some.injEq, List.cons.injEq, and_true]
        exact ⟨by omega, by omega, by omega⟩
  exact H l.length l le_rfl hl

theorem b64Len_mono {m n : Nat} (h : m ≤ n) : 4 * ((m + 2) / 3) ≤ 4 * ((n + 2) / 3) :=
  Nat.mul_le_mul_left 4 (Nat.div_le_div_right (by omega))

/-- Strict UTF-8 validity of a byte string, the check made by
`String::from_utf8` (rejects overlong forms, surrogates and values above
`0x10FFFF`). -/
def isValidUtf8 : List Nat → Bool
  | [] => true
  | b :: rest =>
    if b < 0x80 then isValidUtf8 rest
    else if b < 0xC2 then false
    else if b < 0xE0 then
      match rest with
      | c1 :: r => 0x80 ≤ c1 && c1 < 0xC0 && isValidUtf8 r
      | [] => false
    else if b < 0xF0 then
      match rest with
      | c1 :: c2 :: r =>
        (if b = 0xE0 then 0xA0 ≤ c1 && c1 < 0xC0
         else if b = 0xED then 0x80 ≤ c1 && c1 < 0xA0
         else 0x80 ≤ c1 && c1 < 0xC0) &&
        (0x80 ≤ c2 && c2 < 0xC0) && isValidUtf8 r
      | _ => false
    else if b ≤ 0xF4 then
      match rest with
      | c1 :: c2 :: c3 :: r =>
        (if b = 0xF0 then 0x90 ≤ c1 && c1 < 0xC0
         else if b = 0xF4 then 0x80 ≤ c1 && c1 < 0x90
         else 0x80 ≤ c1 && c1 < 0xC0) &&
        (0x80 ≤ c2 && c2 < 0xC0) && (0x80 ≤ c3 && c3 < 0xC0) && isValidUtf8 r
      | _ => false
    else false

/-- Model of `ChunkEnvelope` (`src/models.rs`).  `request_id` and `data`
are byte strings; `data` holds the base64 text bytes. -/
structure ChunkEnvelope where
  request_id : List Nat
  chunk_index : Nat
  total_chunks : Option Nat
  is_last : Bool
  data : List Nat
deriving Repr, DecidableEq

/-- Compact JSON serialization of a `ChunkEnvelope`, byte for byte what
`serde_json::to_vec` produces for the derived `Serialize` implementation:
fields in declaration order, no whitespace, and an `Option` field encoded
as `null` when it is `None` (the struct carries no `skip_serializing_if`
attribute). -/
def serializeEnvelope (e : ChunkEnvelope) : List Nat :=
  ascii "\x7b\x22request_id\x22:\x22" ++ escString e.request_id ++
  ascii "\x22,\x22chunk_index\x22:" ++ decBytes e.chunk_index ++
  ascii ",\x22total_chunks\x22:" ++
  (match e.total_chunks with
   | none => ascii "null"
   | some n => decBytes n) ++
  ascii ",\x22is_last\x22:" ++ (if e.is_last then ascii "true" else ascii "false") ++
  ascii ",\x22data\x22:\x22" ++ e.data ++ ascii "\x22\x7d"

theorem serializeEnvelope_length (e : ChunkEnvelope) :
    (serializeEnvelope e).length =
      69 + (escString e.request_id).length + (decBytes e.chunk_index).length +
        (match e.total_chunks with
         | none => 4
         | some n => (decBytes n).length) +
        (if e.is_last then 4 else 5) + e.data.length := by
  simp only [serializeEnvelope, List.length_append]
  have l1 : (ascii "\x7b\x22request_id\x22:\x22").length = 15 := by decide
  have l2 : (ascii "\x22,\x22chunk_index\x22:").length = 16 := by decide
  have l3 : (ascii ",\x22total_chunks\x22:").length = 16 := by decide
  have l4 : (ascii ",\x22is_last\x22:").length = 11 := by decide
  have l5 : (ascii ",\x22data\x22:\x22").length = 9 := by decide
  have l6 : (ascii "\x22\x7d").length = 2 := by decide
  rw [l1, l2, l3, l4, l5, l6]
  rcases e.total_chunks with _ | n <;> rcases e.is_last with _ | _ <;>
    simp [ascii] <;> omega

/-- Every serialized envelope contains the `total_chunks` key: the literal
segment is one of the serializer's fixed pieces. -/
theorem serializeEnvelope_total_chunks_segment (e : ChunkEnvelope) :
    ∃ s t, s ++ (ascii ",\x22total_chunks\x22:" ++
      (match e.total_chunks with
       | none => ascii "null"
       | some n => decBytes n)) ++ t = serializeEnvelope e := by
  refine ⟨ascii "\x7b\x22request_id\x22:\x22" ++ escString e.request_id ++
    ascii "\x22,\x22chunk_index\x22:" ++ decBytes e.chunk_index,
    ascii ",\x22is_last\x22:" ++ (if e.is_last then ascii "true" else ascii "false") ++
    ascii ",\x22data\x22:\x22" ++ e.data ++ ascii "\x22\x7d", ?_⟩
  simp [serializeEnvelope, List.append_assoc]

/-- The Web Push envelope ceiling (`MAX_ENVELOPE_BYTES` in
`src/handlers.rs`). -/
def MAX_ENVELOPE_BYTES : Nat := 3000

/-- Serialized size of an envelope with empty `data`
(`envelope_overhead_bytes` in `src/handlers.rs`). -/
def envelope_overhead_bytes (rid : List Nat) (chunkIndex : Nat)
    (totalChunks : Option Nat) (isLast : Bool) : Nat :=
  (serializeEnvelope ⟨rid, chunkIndex, totalChunks, isLast, []⟩).length

/-- The decrement loop of `max_chunk_data_bytes`: while the base64 text of
`r` raw bytes exceeds `available`, saturating-decrement `r`. -/
def shrinkRaw (available : Nat) : Nat → Nat
  | 0 => 0
  | r + 1 => if available < 4 * ((r + 3) / 3) then shrinkRaw available r else r + 1

/-- Maximum raw payload per chunk after base64 and envelope overhead
(`max_chunk_data_bytes` in `src/handlers.rs`); `none` models the error
returns. -/
def max_chunk_data_bytes (configured overhead : Nat) : Option Nat :=
  if MAX_ENVELOPE_BYTES ≤ overhead then none
  else
    let available := MAX_ENVELOPE_BYTES - overhead
    let max_raw := shrinkRaw available (available / 4 * 3)
    let chunk_size := min configured max_raw
    if chunk_size = 0 then none else some chunk_size

/-- Chunk-size resolution with the pessimistic worst-index overhead
(`resolve_chunk_size` in `src/handlers.rs`). -/
def resolve_chunk_size (rid : List Nat) (configured maxTotalBytes : Nat) : Option Nat :=
  let worst := max maxTotalBytes 1
  max_chunk_data_bytes configured
    (envelope_overhead_bytes rid worst (some worst) true)

theorem shrinkRaw_noop {a r : Nat} (h : 4 * ((r + 2) / 3) ≤ a) :
    shrinkRaw a r = r := by
  cases r with
  | zero => rfl
  | succ r =>
    have hc : ¬ a < 4 * ((r + 3) / 3) := by omega
    rw [show shrinkRaw a (r + 1) =
        if a < 4 * ((r + 3) / 3) then shrinkRaw a r else r + 1 from rfl, if_neg hc]

theorem initial_raw_fits (a : Nat) : 4 * ((a / 4 * 3 + 2) / 3) ≤ a := by
  omega

/-- On every successful resolution, the chunk size fits: its base64 text
is at most `available = MAX_ENVELOPE_BYTES - overhead` bytes, the chunk
size is positive, and `available ≥ 4`. -/
theorem resolve_chunk_size_spec (rid : List Nat) (configured maxTotalBytes cs : Nat)
    (h : resolve_chunk_size rid configured maxTotalBytes = some cs) :
    envelope_overhead_bytes rid (max maxTotalBytes 1) (some (max maxTotalBytes 1)) true <
        MAX_ENVELOPE_BYTES ∧
      0 < cs ∧ cs ≤ configured ∧
      4 * ((cs + 2) / 3) ≤ MAX_ENVELOPE_BYTES -
        envelope_overhead_bytes rid (max maxTotalBytes 1) (some (max maxTotalBytes 1)) true ∧
      4 ≤ MAX_ENVELOPE_BYTES -
        envelope_overhead_bytes rid (max maxTotalBytes 1) (some (max maxTotalBytes 1)) true := by
  set worst := max maxTotalBytes 1 with hworst
  set overhead := envelope_overhead_bytes rid worst (some worst) true with hoverhead
  simp only [resolve_chunk_size, max_chunk_data_bytes] at h
  by_cases hov : MAX_ENVELOPE_BYTES ≤ overhead
  · simp [hov, overhead, worst] at h
  · rw [if_neg hov] at h
    set a := MAX_ENVELOPE_BYTES - overhead with ha
    have hshr : shrinkRaw a (a / 4 * 3) = a / 4 * 3 := shrinkRaw_noop (initial_raw_fits a)
    simp only [hshr] at h
    by_cases hz : min configured (a / 4 * 3) = 0
    · simp [hz] at h
    · rw [if_neg hz] at h
      have hcs : cs = min configured (a / 4 * 3) := by
        simpa using h.symm
      have hcs_pos : 0 < cs := by omega
      have hcs_le : cs ≤ a / 4 * 3 := by
        rw [hcs]; exact Nat.min_le_right ..
      have hb64 : 4 * ((cs + 2) / 3) ≤ a := by
        calc 4 * ((cs + 2) / 3) ≤ 4 * ((a / 4 * 3 + 2) / 3) := b64Len_mono hcs_le
        _ ≤ a := initial_raw_fits a
      have ha4 : 4 ≤ a := by
        have : 0 < a / 4 * 3 := by omega
        have : 0 < a / 4 := by omega
        omega
      exact ⟨by omega, hcs_pos, by rw [hcs]; exact Nat.min_le_left .., hb64, ha4⟩

/-- The inner drain loop of the hook handler: while the buffer holds at
least `cs` bytes, drain exactly `cs` bytes and emit them as one chunk.
Returns the drained chunks in order and the remaining buffer. -/
def drainFull (cs : Nat) (buf : List Nat) : List (List Nat) × List Nat :=
  if h : 0 < cs ∧ cs ≤ buf.length then
    let rest := drainFull cs (buf.drop cs)
    (buf.take cs :: rest.1, rest.2)
  else ([], buf)
termination_by buf.length
decreasing_by
  simp only [List.length_drop]
  omega

theorem drainFull_eq (cs : Nat) (buf : List Nat) :
    drainFull cs buf =
      if 0 < cs ∧ cs ≤ buf.length then
        ((buf.take cs) :: (drainFull cs (buf.drop cs)).1, (drainFull cs (buf.drop cs)).2)
      else ([], buf) := by
  rw [drainFull]
  split <;> simp_all

theorem drainFull_small {cs : Nat} {buf : List Nat} (h : buf.length < cs) :
    drainFull cs buf = ([], buf) := by
  rw [drainFull_eq, if_neg (by omega)]

/-- The remaining buffer after the drain loop is shorter than the chunk
size. -/
theorem drainFull_rest_lt (cs : Nat) (hcs : 0 < cs) (buf : List Nat) :
    (drainFull cs buf).2.length < cs := by
  have H : ∀ (n : Nat) (buf : List Nat), buf.length ≤ n →
      (drainFull cs buf).2.length < cs := by
    intro n
    induction n with
    | zero =>
      intro buf h
      rw [drainFull_small (by omega)]
      show buf.length < cs
      omega
    | succ n ih =>
      intro buf h
      by_cases hle : cs ≤ buf.length
      · rw [drainFull_eq, if_pos ⟨hcs, hle⟩]
        exact ih (buf.drop cs) (by simp [List.length_drop]; omega)
      · rw [drainFull_small (by omega)]
        show buf.length < cs
        omega
  exact H buf.length buf le_rfl

/-- Draining splits the buffer: the chunks followed by the rest
reconstitute it. -/
theorem drainFull_join (cs : Nat) (hcs : 0 < cs) (buf : List Nat) :
    (drainFull cs buf).1.flatten ++ (drainFull cs buf).2 = buf := by
  have H : ∀ (n : Nat) (buf : List Nat), buf.length ≤ n →
      (drainFull cs buf).1.flatten ++ (drainFull cs buf).2 = buf := by
    intro n
    induction n with
    | zero =>
      intro buf h
      rw [drainFull_small (by omega)]
      simp
    | succ n ih =>
      intro buf h
      by_cases hle : cs ≤ buf.length
      · rw [drainFull_eq, if_pos ⟨hcs, hle⟩]
        simp only [List.flatten_cons, List.append_assoc]
        rw [ih (buf.drop cs) (by simp [List.length_drop]; omega)]
        exact List.take_append_drop cs buf
      · rw [drainFull_small (by omega)]
        simp
  exact H buf.length buf le_rfl

/-- Every drained chunk has exactly `cs` bytes. -/
theorem drainFull_chunk_length (cs : Nat) (buf : List Nat) :
    ∀ c ∈ (drainFull cs buf).1, c.length = cs := by
  have H : ∀ (n : Nat) (buf : List Nat), buf.length ≤ n →
      ∀ c ∈ (drainFull cs buf).1, c.length = cs := by
    intro n
    induction n with
    | zero =>
      intro buf h c hc
      rcases Nat.eq_zero_or_pos cs with h0 | h0
      · rw [drainFull_eq] at hc
        simp [h0] at hc
      · rw [drainFull_small (by omega)] at hc
        simp at hc
    | succ n ih =>
      intro buf h c hc
      by_cases hcond : 0 < cs ∧ cs ≤ buf.length
      · rw [drainFull_eq, if_pos hcond] at hc
        rcases List.mem_cons.mp hc with h1 | h1
        · rw [h1]
          exact List.length_take_of_le hcond.2
        · exact ih (buf.drop cs) (by simp [List.length_drop]; omega) c h1
      · rw [drainFull_eq, if_neg hcond] at hc
        simp at hc
  exact H buf.length buf le_rfl

/-- The number of drained chunks is the buffer length divided by `cs`. -/
theorem drainFull_count (cs : Nat) (hcs : 0 < cs) (buf : List Nat) :
    (drainFull cs buf).1.length = buf.length / cs := by
  have H : ∀ (n : Nat) (buf : List Nat), buf.length ≤ n →
      (drainFull cs buf).1.length = buf.length / cs := by
    intro n
    induction n with
    | zero =>
      intro buf h
      have h0 : buf.length = 0 := by omega
      rw [drainFull_small (by omega)]
      simp [h0]
    | succ n ih =>
      intro buf h
      by_cases hle : cs ≤ buf.length
      · rw [drainFull_eq, if_pos ⟨hcs, hle⟩]
        simp only [List.length_cons]
        rw [ih (buf.drop cs) (by simp [List.length_drop]; omega)]
        simp only [List.length_drop]
        rw [Nat.div_eq_sub_div hcs hle]
      · have h0 : buf.length / cs = 0 := Nat.div_eq_of_lt (by omega)
        rw [drainFull_small (by omega)]
        simp [h0]
  exact H buf.length buf le_rfl

/-- The `i`-th drained chunk is the `i`-th `cs`-byte slice of the buffer. -/
theorem drainFull_get (cs : Nat) (hcs : 0 < cs) (buf : List Nat) (i : Nat)
    (hi : i < buf.length / cs) :
    (drainFull cs buf).1.get? i = some ((buf.drop (i * cs)).take cs) := by
  have H : ∀ (n : Nat) (buf : List Nat), buf.length ≤ n → ∀ i, i < buf.length / cs →
      (drainFull cs buf).1.get? i = some ((buf.drop (i * cs)).take cs) := by
    intro n
    induction n with
    | zero =>
      intro buf h i hi
      rw [Nat.div_eq_of_lt (by omega)] at hi
      omega
    | succ n ih =>
      intro buf h i hi
      have hle : cs ≤ buf.length := by
        by_contra hlt
        rw [Nat.div_eq_of_lt (by omega)] at hi
        omega
      rw [drainFull_eq, if_pos ⟨hcs, hle⟩]
      cases i with
      | zero => simp
      | succ i =>
        simp only [List.get?_cons_succ]
        have hlen : (buf.drop cs).length = buf.length - cs := by simp
        have hi2 : i < (buf.drop cs).length / cs := by
          rw [hlen]
          rw [Nat.div_eq_sub_div hcs hle] at hi
          omega
        rw [ih (buf.drop cs) (by omega) i hi2]
        rw [List.drop_drop]
        congr 2
        ring_nf
  exact H buf.length buf le_rfl i hi

/-- Appending more input to the buffer only extends the drained output:
the drain loop is insensitive to packet boundaries. -/
theorem drainFull_append (cs : Nat) (hcs : 0 < cs) (buf extra : List Nat) :
    drainFull cs (buf ++ extra) =
      ((drainFull cs buf).1 ++ (drainFull cs ((drainFull cs buf).2 ++ extra)).1,
       (drainFull cs ((drainFull cs buf).2 ++ extra)).2) := by
  have H : ∀ (n : Nat) (buf : List Nat), buf.length ≤ n →
      drainFull cs (buf ++ extra) =
        ((drainFull cs buf).1 ++ (drainFull cs ((drainFull cs buf).2 ++ extra)).1,
         (drainFull cs ((drainFull cs buf).2 ++ extra)).2) := by
    intro n
    induction n with
    | zero =>
      intro buf h
      have hb : buf = [] := List.eq_nil_of_length_eq_zero (by omega)
      subst hb
      simp [drainFull_small (show ([] : List Nat).length < cs by simpa using hcs)]
    | succ n ih =>
      intro buf h
      by_cases hle : cs ≤ buf.length
      · have h1 : drainFull cs buf =
            ((buf.take cs) :: (drainFull cs (buf.drop cs)).1, (drainFull cs (buf.drop cs)).2) := by
          rw [drainFull_eq, if_pos ⟨hcs, hle⟩]
        have h2 : drainFull cs (buf ++ extra) =
            (((buf ++ extra).take cs) :: (drainFull cs ((buf ++ extra).drop cs)).1,
             (drainFull cs ((buf ++ extra).drop cs)).2) := by
          rw [drainFull_eq, if_pos ⟨hcs, by simp [List.length_append]; omega⟩]
        rw [h1, h2]
        rw [List.take_append_of_le_length hle, List.drop_append_of_le_length hle]
        rw [ih (buf.drop cs) (by simp [List.length_drop]; omega)]
        simp
      · rw [drainFull_small (show buf.length < cs by omega)]
        simp
  exact H buf.length buf le_rfl

/-- Envelope built by `enqueue_chunk` for a non-last chunk: running index,
`total_chunks: None`, `is_last: false`, base64 data. -/
def mkNonLast (rid : List Nat) (idx : Nat) (chunk : List Nat) : ChunkEnvelope :=
  ⟨rid, idx, none, false, base64Encode chunk⟩

/-- Envelope built by `enqueue_chunk` for the final chunk: `is_last: true`
and `total_chunks` equal to the final index. -/
def mkLast (rid : List Nat) (idx : Nat) (chunk : List Nat) : ChunkEnvelope :=
  ⟨rid, idx, some idx, true, base64Encode chunk⟩

/-- Non-last envelopes for a run of drained chunks, indices starting at
`idx + 1`. -/
def nonLastEnvs (rid : List Nat) : Nat → List (List Nat) → List ChunkEnvelope
  | _, [] => []
  | idx, c :: cs => mkNonLast rid (idx + 1) c :: nonLastEnvs rid (idx + 1) cs

theorem nonLastEnvs_length (rid : List Nat) (idx : Nat) (chunks : List (List Nat)) :
    (nonLastEnvs rid idx chunks).length = chunks.length := by
  induction chunks generalizing idx with
  | nil => rfl
  | cons c cs ih => simp [nonLastEnvs, ih]

theorem nonLastEnvs_append (rid : List Nat) (idx : Nat) (c1 c2 : List (List Nat)) :
    nonLastEnvs rid idx (c1 ++ c2) =
      nonLastEnvs rid idx c1 ++ nonLastEnvs rid (idx + c1.length) c2 := by
  induction c1 generalizing idx with
  | nil => simp [nonLastEnvs]
  | cons c cs ih =>
    simp only [List.cons_append, nonLastEnvs, List.append_eq]
    rw [ih (idx + 1)]
    simp only [List.length_cons]
    rw [show idx + (cs.length + 1) = idx + 1 + cs.length from by omega]

theorem nonLastEnvs_mem (rid : List Nat) (idx : Nat) (chunks : List (List Nat)) :
    ∀ e ∈ nonLastEnvs rid idx chunks,
      ∃ i c, i < chunks.length ∧ chunks.get? i = some c ∧ e = mkNonLast rid (idx + i + 1) c := by
  induction chunks generalizing idx with
  | nil => simp [nonLastEnvs]
  | cons c cs ih =>
    intro e he
    rcases List.mem_cons.mp he with h | h
    · exact ⟨0, c, by simp, by simp, by simpa using h⟩
    · obtain ⟨i, c2, hi, hget, he2⟩ := ih (idx + 1) e h
      exact ⟨i + 1, c2, by simpa using hi, by simpa using hget, by
        rw [he2]
        congr 1
        omega⟩

theorem nonLastEnvs_get (rid : List Nat) (idx i : Nat) (chunks : List (List Nat))
    (c : List Nat) (h : chunks.get? i = some c) :
    (nonLastEnvs rid idx chunks).get? i = some (mkNonLast rid (idx + i + 1) c) := by
  induction chunks generalizing idx i with
  | nil => simp at h
  | cons c0 cs ih =>
    cases i with
    | zero =>
      simp only [List.get?_cons_zero, Option.some.injEq] at h
      subst h
      rfl
    | succ i =>
      simp only [List.get?_cons_succ] at h
      simp only [nonLastEnvs, List.get?_cons_succ]
      rw [ih (idx + 1) i h]
      congr 2
      omega

/-- The body of the hook streaming loop, one recursion step per pull from
the body stream (`stream.next()`): first drain the buffer into full-sized
non-last envelopes, then either consume the next body packet or, at end of
stream, flush the remaining buffer as the final envelope. -/
def streamCore (rid : List Nat) (cs : Nat) (buf : List Nat) (idx : Nat) :
    List (List Nat) → List ChunkEnvelope
  | [] =>
    nonLastEnvs rid idx (drainFull cs buf).1 ++
      [mkLast rid (idx + (drainFull cs buf).1.length + 1) (drainFull cs buf).2]
  | p :: ps =>
    nonLastEnvs rid idx (drainFull cs buf).1 ++
      streamCore rid cs ((drainFull cs buf).2 ++ p) (idx + (drainFull cs buf).1.length) ps

/-- The framed byte stream the hook seeds the buffer with:
`WHP1 || 4-byte big-endian length of meta || meta`. -/
def hookFrame (meta : List Nat) : List Nat :=
  ascii "WHP1" ++ beBytes 4 meta.length ++ meta

theorem hookFrame_length (meta : List Nat) :
    (hookFrame meta).length = 8 + meta.length := by
  simp [hookFrame, beBytes_length, ascii]
  omega

/-- All envelopes the hook handler enqueues for one request, in emission
order, as a function of the request id, the serialized metadata, the
resolved chunk size, and the packets delivered by the body stream. -/
def hookEmit (rid meta : List Nat) (cs : Nat) (packets : List (List Nat)) :
    List ChunkEnvelope :=
  streamCore rid cs (hookFrame meta) 0 packets

/-- Packet boundaries do not matter: the loop emits exactly the envelopes
of the greedy chunk split of the whole framed stream. -/
theorem streamCore_flatten (rid : List Nat) (cs : Nat) (hcs : 0 < cs) :
    ∀ (packets : List (List Nat)) (buf : List Nat) (idx : Nat),
      streamCore rid cs buf idx packets =
        streamCore rid cs (buf ++ packets.flatten) idx [] := by
  intro packets
  induction packets with
  | nil => simp [streamCore]
  | cons p ps ih =>
    intro buf idx
    rw [show streamCore rid cs buf idx (p :: ps) =
        nonLastEnvs rid idx (drainFull cs buf).1 ++
          streamCore rid cs ((drainFull cs buf).2 ++ p) (idx + (drainFull cs buf).1.length) ps
      from rfl]
    rw [ih]
    have hd := drainFull_append cs hcs buf (p ++ ps.flatten)
    rw [show streamCore rid cs (buf ++ (p :: ps).flatten) idx [] =
        nonLastEnvs rid idx (drainFull cs (buf ++ (p :: ps).flatten)).1 ++
          [mkLast rid (idx + (drainFull cs (buf ++ (p :: ps).flatten)).1.length + 1)
            (drainFull cs (buf ++ (p :: ps).flatten)).2] from rfl]
    rw [show streamCore rid cs ((drainFull cs buf).2 ++ p ++ ps.flatten)
          (idx + (drainFull cs buf).1.length) [] =
        nonLastEnvs rid (idx + (drainFull cs buf).1.length)
            (drainFull cs ((drainFull cs buf).2 ++ p ++ ps.flatten)).1 ++
          [mkLast rid (idx + (drainFull cs buf).1.length +
              (drainFull cs ((drainFull cs buf).2 ++ p ++ ps.flatten)).1.length + 1)
            (drainFull cs ((drainFull cs buf).2 ++ p ++ ps.flatten)).2] from rfl]
    rw [show buf ++ (p :: ps).flatten = buf ++ (p ++ ps.flatten) from by simp]
    rw [hd]
    simp only [List.length_append]
    rw [nonLastEnvs_append]
    rw [show (drainFull cs buf).2 ++ p ++ ps.flatten =
        (drainFull cs buf).2 ++ (p ++ ps.flatten) from by simp [List.append_assoc]]
    simp [List.append_assoc]
    simp [Nat.add_assoc]

/-- Closed form of the emitted envelopes: the greedy `cs`-chunks of the
whole framed stream as non-last envelopes, then the final envelope. -/
theorem hookEmit_eq (rid meta : List Nat) (cs : Nat) (packets : List (List Nat))
    (hcs : 0 < cs) :
    hookEmit rid meta cs packets =
      nonLastEnvs rid 0 (drainFull cs (hookFrame meta ++ packets.flatten)).1 ++
        [mkLast rid ((drainFull cs (hookFrame meta ++ packets.flatten)).1.length + 1)
          (drainFull cs (hookFrame meta ++ packets.flatten)).2] := by
  rw [hookEmit, streamCore_flatten rid cs hcs packets (hookFrame meta) 0]
  rw [show streamCore rid cs (hookFrame meta ++ packets.flatten) 0 [] =
      nonLastEnvs rid 0 (drainFull cs (hookFrame meta ++ packets.flatten)).1 ++
        [mkLast rid (0 + (drainFull cs (hookFrame meta ++ packets.flatten)).1.length + 1)
          (drainFull cs (hookFrame meta ++ packets.flatten)).2] from rfl]
  rw [Nat.zero_add]

theorem size_mkNonLast (rid : List Nat) (idx : Nat) (chunk : List Nat) :
    (serializeEnvelope (mkNonLast rid idx chunk)).length =
      69 + (escString rid).length + (decBytes idx).length + 9 +
        4 * ((chunk.length + 2) / 3) := by
  rw [serializeEnvelope_length]
  simp [mkNonLast, base64Encode_length]
  try omega

theorem size_mkLast (rid : List Nat) (idx : Nat) (chunk : List Nat) :
    (serializeEnvelope (mkLast rid idx chunk)).length =
      69 + (escString rid).length + 2 * (decBytes idx).length + 4 +
        4 * ((chunk.length + 2) / 3) := by
  rw [serializeEnvelope_length]
  simp [mkLast, base64Encode_length]
  try omega

theorem overhead_eq (rid : List Nat) (w : Nat) :
    envelope_overhead_bytes rid w (some w) true =
      69 + (escString rid).length + 2 * (decBytes w).length + 4 := by
  rw [envelope_overhead_bytes, serializeEnvelope_length]
  simp
  try omega

/-- C1 (amended): every payload and request id for which
`resolve_chunk_size` succeeds yields envelopes of serialized size at most
`MAX_ENVELOPE_BYTES = 3000`, provided the `max_total_bytes` bound passed
to `resolve_chunk_size` (the frame length plus the maximal body size) is
at least 10000.  Without that proviso the claim fails, because a `None`
`total_chunks` is serialized as the four-byte `null`, which can exceed
the pessimistic overhead computed with a short worst-case index. -/
theorem claim_C1_amended (rid meta : List Nat) (configured maxBody cs : Nat)
    (packets : List (List Nat))
    (hres : resolve_chunk_size rid configured ((hookFrame meta).length + maxBody) = some cs)
    (hW : 10000 ≤ (hookFrame meta).length + maxBody)
    (hbody : packets.flatten.length ≤ maxBody) :
    ∀ e ∈ hookEmit rid meta cs packets,
      (serializeEnvelope e).length ≤ MAX_ENVELOPE_BYTES := by
  have hcsspec := resolve_chunk_size_spec rid configured
    ((hookFrame meta).length + maxBody) cs hres
  have hWmax : max ((hookFrame meta).length + maxBody) 1 =
      (hookFrame meta).length + maxBody := by omega
  rw [hWmax, overhead_eq] at hcsspec
  obtain ⟨hov, hcs, hcfg, hb64, ha4⟩ := hcsspec
  have hdW5 : 5 ≤ (decBytes ((hookFrame meta).length + maxBody)).length :=
    decBytes_length_ge_five hW
  have htlen : (hookFrame meta ++ packets.flatten).length ≤
      (hookFrame meta).length + maxBody := by
    simp only [List.length_append]
    omega
  intro e he
  rw [hookEmit_eq rid meta cs packets hcs] at he
  have hcount : (drainFull cs (hookFrame meta ++ packets.flatten)).1.length =
      (hookFrame meta ++ packets.flatten).length / cs :=
    drainFull_count cs hcs (hookFrame meta ++ packets.flatten)
  have hdivW : (hookFrame meta ++ packets.flatten).length / cs ≤
      (hookFrame meta).length + maxBody :=
    le_trans (Nat.div_le_self ..) htlen
  rcases List.mem_append.mp he with hmem | hmem
  · -- a non-last envelope
    obtain ⟨i, c, hi, hget, hee⟩ := nonLastEnvs_mem rid 0 _ e hmem
    have hc : c ∈ (drainFull cs (hookFrame meta ++ packets.flatten)).1 :=
      List.get?_mem hget
    have hclen : c.length = cs :=
      drainFull_chunk_length cs (hookFrame meta ++ packets.flatten) c hc
    have hiW : i + 1 ≤ (hookFrame meta).length + maxBody := by omega
    have hd : (decBytes (i + 1)).length ≤
        (decBytes ((hookFrame meta).length + maxBody)).length :=
      decBytes_length_mono hiW
    rw [hee, size_mkNonLast, hclen]
    rw [show (0 : Nat) + i + 1 = i + 1 from by omega]
    omega
  · -- the final envelope
    have hee : e = mkLast rid
        ((drainFull cs (hookFrame meta ++ packets.flatten)).1.length + 1)
        (drainFull cs (hookFrame meta ++ packets.flatten)).2 := by
      simpa using hmem
    have hrest : (drainFull cs (hookFrame meta ++ packets.flatten)).2.length < cs :=
      drainFull_rest_lt cs hcs (hookFrame meta ++ packets.flatten)
    rw [hee, size_mkLast]
    rcases Nat.lt_or_ge cs 2 with hcs1 | hcs2
    · -- cs = 1: the final chunk is empty and the index is at most W + 1
      have hcse : cs = 1 := by omega
      have hrest0 : (drainFull cs (hookFrame meta ++ packets.flatten)).2.length = 0 := by
        omega
      have hk : (drainFull cs (hookFrame meta ++ packets.flatten)).1.length =
          (hookFrame meta ++ packets.flatten).length := by
        rw [hcount, hcse, Nat.div_one]
      have hd1 : (decBytes ((drainFull cs (hookFrame meta ++ packets.flatten)).1.length + 1)).length ≤
          (decBytes ((hookFrame meta).length + maxBody + 1)).length :=
        decBytes_length_mono (by omega)
      have hd2 : (decBytes ((hookFrame meta).length + maxBody + 1)).length ≤
          (decBytes ((hookFrame meta).length + maxBody)).length + 1 :=
        decBytes_length_succ_le ((hookFrame meta).length + maxBody)
      rw [hrest0]
      omega
    · -- cs ≥ 2: the final index is at most W
      have hk2 : (hookFrame meta ++ packets.flatten).length / cs ≤
          ((hookFrame meta).length + maxBody) / 2 := by
        calc (hookFrame meta ++ packets.flatten).length / cs ≤
            ((hookFrame meta).length + maxBody) / cs := Nat.div_le_div_right htlen
        _ ≤ ((hookFrame meta).length + maxBody) / 2 :=
            Nat.div_le_div_left hcs2 (by omega)
      have hhalf : ((hookFrame meta).length + maxBody) / 2 + 1 ≤
          (hookFrame meta).length + maxBody := by omega
      have hd1 : (decBytes ((drainFull cs (hookFrame meta ++ packets.flatten)).1.length + 1)).length ≤
          (decBytes ((hookFrame meta).length + maxBody)).length :=
        decBytes_length_mono (by omega)
      have hdata : 4 * (((drainFull cs (hookFrame meta ++ packets.flatten)).2.length + 2) / 3) ≤
          4 * ((cs + 2) / 3) := b64Len_mono (by omega)
      omega

theorem c1_cex_overhead :
    envelope_overhead_bytes (List.replicate 2917 65) 100 (some 100) true = 2996 := by
  rw [overhead_eq, escString_replicate_65]
  rw [List.length_replicate]
  rw [show (decBytes 100).length = 3 from rfl]

theorem c1_cex_resolve :
    resolve_chunk_size (List.replicate 2917 65) 1 100 = some 1 := by
  rw [resolve_chunk_size]
  rw [show max 100 1 = 100 from rfl]
  rw [c1_cex_overhead]
  decide

theorem c1_cex_total :
    hookFrame (List.replicate 50 7) ++ ([List.replicate 42 7] : List (List Nat)).flatten =
      [87, 72, 80, 49, 0, 0, 0, 50] ++ (List.replicate 50 7 ++ List.replicate 42 7) := by
  rw [hookFrame]
  rw [show List.length (List.replicate 50 7) = 50 from by simp]
  simp [ascii, beBytes]

theorem c1_cex_chunk :
    ((hookFrame (List.replicate 50 7) ++
        ([List.replicate 42 7] : List (List Nat)).flatten).drop 9).take 1 = [7] := by
  rw [c1_cex_total]
  rw [show (List.replicate 50 7 : List Nat) = 7 :: 7 :: List.replicate 48 7 from by
    simp [List.replicate_succ]]
  rfl

theorem c1_cex_len :
    (hookFrame (List.replicate 50 7) ++
      ([List.replicate 42 7] : List (List Nat)).flatten).length = 100 := by
  rw [c1_cex_total]
  simp

/-- C1 (counterexample): with a 2917-byte request id, a 50-byte meta, a
42-byte body budget (so `max_total_bytes = 100`) and configured chunk size
1, `resolve_chunk_size` succeeds with chunk size 1, yet the tenth emitted
envelope serializes to 3001 bytes: `"total_chunks":null` and
`"is_last":false` together are five bytes longer than the worst-case
overhead estimated with the three-digit index 100. -/
theorem claim_C1_counterexample :
    resolve_chunk_size (List.replicate 2917 65) 1
        ((hookFrame (List.replicate 50 7)).length + 42) = some 1 ∧
      ([List.replicate 42 7] : List (List Nat)).flatten.length ≤ 42 ∧
      ¬ (∀ e ∈ hookEmit (List.replicate 2917 65) (List.replicate 50 7) 1
            [List.replicate 42 7],
          (serializeEnvelope e).length ≤ MAX_ENVELOPE_BYTES) := by
  refine ⟨?_, by simp, ?_⟩
  · rw [hookFrame_length]
    rw [show List.length (List.replicate 50 7) = 50 from by simp]
    exact c1_cex_resolve
  · intro h
    have hget : (drainFull 1 (hookFrame (List.replicate 50 7) ++
        ([List.replicate 42 7] : List (List Nat)).flatten)).1.get? 9 =
        some [7] := by
      rw [show ([7] : List Nat) = ((hookFrame (List.replicate 50 7) ++
          ([List.replicate 42 7] : List (List Nat)).flatten).drop (9 * 1)).take 1 from by
        rw [show 9 * 1 = 9 from rfl, c1_cex_chunk]]
      exact drainFull_get 1 (by norm_num) _ 9 (by rw [c1_cex_len]; norm_num)
    have hmem : mkNonLast (List.replicate 2917 65) 10 [7] ∈
        hookEmit (List.replicate 2917 65) (List.replicate 50 7) 1 [List.replicate 42 7] := by
      rw [hookEmit_eq _ _ _ _ (by norm_num)]
      apply List.mem_append_left
      have := nonLastEnvs_get (List.replicate 2917 65) 0 9 _ [7] hget
      rw [show (0 : Nat) + 9 + 1 = 10 from rfl] at this
      exact List.get?_mem this
    have hsize := h _ hmem
    rw [size_mkNonLast, escString_replicate_65, List.length_replicate] at hsize
    rw [show (decBytes 10).length = 2 from rfl] at hsize
    rw [show (List.length [(7 : Nat)] + 2) / 3 = 1 from rfl] at hsize
    rw [MAX_ENVELOPE_BYTES] at hsize
    omega

theorem c1_witness_resolve :
    resolve_chunk_size [114] 2400 ((hookFrame []).length + 9992) = some 2187 := by
  decide

theorem claim_C1_witness :
    resolve_chunk_size [114] 2400 ((hookFrame []).length + 9992) = some 2187 ∧
      10000 ≤ (hookFrame []).length + 9992 ∧
      ([[1, 2, 3]] : List (List Nat)).flatten.length ≤ 9992 ∧
      ∀ e ∈ hookEmit [114] [] 2187 [[1, 2, 3]],
        (serializeEnvelope e).length ≤ MAX_ENVELOPE_BYTES :=
  ⟨c1_witness_resolve, by decide, by decide,
    claim_C1_amended [114] [] 2400 9992 2187 [[1, 2, 3]] c1_witness_resolve
      (by decide) (by decide)⟩

theorem nonLastEnvs_decode (rid : List Nat) (idx : Nat) (chunks : List (List Nat))
    (h : ∀ c ∈ chunks, ∀ b ∈ c, b < 256) :
    (nonLastEnvs rid idx chunks).map (fun e => base64Decode e.data) = chunks.map some := by
  induction chunks generalizing idx with
  | nil => rfl
  | cons c cs ih =>
    simp only [nonLastEnvs, List.map_cons, mkNonLast]
    rw [base64_roundtrip c (h c (by simp))]
    rw [ih (idx + 1) (fun c2 hc2 => h c2 (by simp [hc2]))]

theorem hookFrame_bytes_lt (meta : List Nat) (hmeta : ∀ b ∈ meta, b < 256) :
    ∀ b ∈ hookFrame meta, b < 256 := by
  intro b hb
  rw [hookFrame] at hb
  rcases List.mem_append.mp hb with h | h
  · rcases List.mem_append.mp h with h2 | h2
    · have : b ∈ ([87, 72, 80, 49] : List Nat) := by simpa [ascii] using h2
      fin_cases this <;> norm_num
    · exact beBytes_lt 4 meta.length b h2
  · exact hmeta b h

/-- C2: when the hook completes successfully, base64-decoding every
emitted envelope's `data` and concatenating in emission (= `chunk_index`)
order reconstructs `WHP1 || 4-byte big-endian meta length || meta || body`
exactly. -/
theorem claim_C2 (rid meta : List Nat) (configured maxBody cs : Nat)
    (packets : List (List Nat))
    (hres : resolve_chunk_size rid configured ((hookFrame meta).length + maxBody) = some cs)
    (hbody : packets.flatten.length ≤ maxBody)
    (hmeta : ∀ b ∈ meta, b < 256)
    (hpk : ∀ b ∈ packets.flatten, b < 256)
    (hmlen : meta.length < 2 ^ 32) :
    ∃ chunks : List (List Nat),
      (hookEmit rid meta cs packets).map (fun e => base64Decode e.data) =
          chunks.map some ∧
        chunks.flatten = hookFrame meta ++ packets.flatten := by
  obtain ⟨-, hcs, -, -, -⟩ := resolve_chunk_size_spec rid configured
    ((hookFrame meta).length + maxBody) cs hres
  have htb : ∀ b ∈ hookFrame meta ++ packets.flatten, b < 256 := by
    intro b hb
    rcases List.mem_append.mp hb with h | h
    · exact hookFrame_bytes_lt meta hmeta b h
    · exact hpk b h
  have hjoin := drainFull_join cs hcs (hookFrame meta ++ packets.flatten)
  refine ⟨(drainFull cs (hookFrame meta ++ packets.flatten)).1 ++
    [(drainFull cs (hookFrame meta ++ packets.flatten)).2], ?_, ?_⟩
  · rw [hookEmit_eq rid meta cs packets hcs]
    rw [List.map_append, List.map_append]
    have hcb : ∀ c ∈ (drainFull cs (hookFrame meta ++ packets.flatten)).1,
        ∀ b ∈ c, b < 256 := by
      intro c hc b hb
      apply htb
      rw [← hjoin]
      apply List.mem_append_left
      exact List.mem_flatten.mpr ⟨c, hc, hb⟩
    rw [nonLastEnvs_decode rid 0 _ hcb]
    have hrb : ∀ b ∈ (drainFull cs (hookFrame meta ++ packets.flatten)).2, b < 256 := by
      intro b hb
      apply htb
      rw [← hjoin]
      exact List.mem_append_right _ hb
    simp only [List.map_cons, List.map_nil, mkLast]
    rw [base64_roundtrip _ hrb]
  · simp only [List.flatten_append, List.flatten_cons, List.flatten_nil, List.append_nil]
    exact hjoin

theorem claim_C2_witness :
    ∃ chunks : List (List Nat),
      (hookEmit [114] [] 2187 [[1, 2, 3]]).map (fun e => base64Decode e.data) =
          chunks.map some ∧
        chunks.flatten = hookFrame [] ++ ([[1, 2, 3]] : List (List Nat)).flatten :=
  claim_C2 [114] [] 2400 9992 2187 [[1, 2, 3]]
    (by decide) (by decide) (by decide) (by decide) (by norm_num)

theorem nonLastEnvs_map_index (rid : List Nat) (idx : Nat) (chunks : List (List Nat)) :
    (nonLastEnvs rid idx chunks).map (fun e => e.chunk_index) =
      List.range' (idx + 1) chunks.length := by
  induction chunks generalizing idx with
  | nil => rfl
  | cons c cs ih =>
    simp only [nonLastEnvs, List.map_cons, mkNonLast, List.length_cons]
    rw [ih (idx + 1)]
    rw [List.range'_succ]

theorem nonLastEnvs_not_last (rid : List Nat) (idx : Nat) (chunks : List (List Nat)) :
    ∀ e ∈ nonLastEnvs rid idx chunks, e.is_last = false := by
  induction chunks generalizing idx with
  | nil => simp [nonLastEnvs]
  | cons c cs ih =>
    intro e he
    rcases List.mem_cons.mp he with h | h
    · rw [h]; rfl
    · exact ih (idx + 1) e h

theorem nonLastEnvs_index_le (rid : List Nat) (idx : Nat) (chunks : List (List Nat)) :
    ∀ e ∈ nonLastEnvs rid idx chunks, e.chunk_index ≤ idx + chunks.length := by
  induction chunks generalizing idx with
  | nil => simp [nonLastEnvs]
  | cons c cs ih =>
    intro e he
    rcases List.mem_cons.mp he with h | h
    · rw [h]
      simp only [mkNonLast, List.length_cons]
      omega
    · have := ih (idx + 1) e h
      simp only [List.length_cons]
      omega

theorem range'_concat_one (s n : Nat) :
    List.range' s n ++ [s + n] = List.range' s (n + 1) := by
  induction n generalizing s with
  | zero => simp [List.range']
  | succ n ih =>
    rw [List.range'_succ, List.range'_succ]
    simp only [List.cons_append]
    rw [show s + (n + 1) = s + 1 + n from by omega]
    rw [ih (s + 1)]

/-- C5: on every successful hook request the emitted envelopes carry the
chunk indices `1, 2, ..., N` in order, exactly one envelope has
`is_last = true`, and that envelope is the last emitted one and carries
the largest index `N`. -/
theorem claim_C5 (rid meta : List Nat) (configured maxBody cs : Nat)
    (packets : List (List Nat))
    (hres : resolve_chunk_size rid configured ((hookFrame meta).length + maxBody) = some cs)
    (hbody : packets.flatten.length ≤ maxBody) :
    (hookEmit rid meta cs packets).map (fun e => e.chunk_index) =
        List.range' 1 (hookEmit rid meta cs packets).length ∧
      (hookEmit rid meta cs packets).countP (fun e => e.is_last) = 1 ∧
      ∀ e ∈ hookEmit rid meta cs packets, e.is_last = true →
        (hookEmit rid meta cs packets).getLast? = some e ∧
          e.chunk_index = (hookEmit rid meta cs packets).length := by
  obtain ⟨-, hcs, -, -, -⟩ := resolve_chunk_size_spec rid configured
    ((hookFrame meta).length + maxBody) cs hres
  rw [hookEmit_eq rid meta cs packets hcs]
  set chunks := (drainFull cs (hookFrame meta ++ packets.flatten)).1 with hchunks
  set rest := (drainFull cs (hookFrame meta ++ packets.flatten)).2 with hrest
  have hlen : (nonLastEnvs rid 0 chunks ++ [mkLast rid (chunks.length + 1) rest]).length =
      chunks.length + 1 := by
    simp [nonLastEnvs_length]
  refine ⟨?_, ?_, ?_⟩
  · rw [List.map_append, nonLastEnvs_map_index, hlen]
    simp only [List.map_cons, List.map_nil, mkLast]
    rw [show (0 : Nat) + 1 = 1 from rfl]
    rw [show (chunks.length + 1 : Nat) = 1 + chunks.length from by omega]
    rw [show (1 + chunks.length : Nat) = 1 + chunks.length from rfl]
    have := range'_concat_one 1 chunks.length
    rw [show (1 + chunks.length : Nat) = chunks.length + 1 from by omega] at this ⊢
    rw [this]
  · rw [List.countP_append]
    have h1 : (nonLastEnvs rid 0 chunks).countP (fun e => e.is_last) = 0 := by
      rw [List.countP_eq_zero]
      intro e he
      simp [nonLastEnvs_not_last rid 0 chunks e he]
    rw [h1]
    rfl
  · intro e he hlast
    rcases List.mem_append.mp he with hmem | hmem
    · have := nonLastEnvs_not_last rid 0 chunks e hmem
      rw [this] at hlast
      cases hlast
    · have heq : e = mkLast rid (chunks.length + 1) rest := by simpa using hmem
      subst heq
      refine ⟨?_, ?_⟩
      · rw [List.getLast?_concat]
      · rw [hlen]
        rfl

theorem claim_C5_witness :
    (hookEmit [114] [] 2187 [[1, 2, 3]]).map (fun e => e.chunk_index) =
        List.range' 1 (hookEmit [114] [] 2187 [[1, 2, 3]]).length ∧
      (hookEmit [114] [] 2187 [[1, 2, 3]]).countP (fun e => e.is_last) = 1 ∧
      ∀ e ∈ hookEmit [114] [] 2187 [[1, 2, 3]], e.is_last = true →
        (hookEmit [114] [] 2187 [[1, 2, 3]]).getLast? = some e ∧
          e.chunk_index = (hookEmit [114] [] 2187 [[1, 2, 3]]).length :=
  claim_C5 [114] [] 2400 9992 2187 [[1, 2, 3]] (by decide) (by decide)

/-- One byte string occurs contiguously inside another (used to speak
about the presence of a field in a serialized JSON document). -/
def hasSegment (pat l : List Nat) : Prop := ∃ s t, s ++ pat ++ t = l

/-- C3 (amended): the serialized JSON of every emitted envelope carries
the `total_chunks` key.  On the last envelope its value is the final
`chunk_index`; on every non-last envelope the Rust value is `None`, which
`serde_json` serializes as the literal `null` (the field is present as
`"total_chunks":null`, not absent). -/
theorem claim_C3_amended (rid meta : List Nat) (configured maxBody cs : Nat)
    (packets : List (List Nat))
    (hres : resolve_chunk_size rid configured ((hookFrame meta).length + maxBody) = some cs)
    (hbody : packets.flatten.length ≤ maxBody) :
    ∀ e ∈ hookEmit rid meta cs packets,
      (e.is_last = false → e.total_chunks = none ∧
        hasSegment (ascii ",\x22total_chunks\x22:null") (serializeEnvelope e)) ∧
      (e.is_last = true → e.total_chunks = some e.chunk_index ∧
        hasSegment (ascii ",\x22total_chunks\x22:" ++ decBytes e.chunk_index)
          (serializeEnvelope e)) := by
  obtain ⟨-, hcs, -, -, -⟩ := resolve_chunk_size_spec rid configured
    ((hookFrame meta).length + maxBody) cs hres
  intro e he
  rw [hookEmit_eq rid meta cs packets hcs] at he
  rcases List.mem_append.mp he with hmem | hmem
  · obtain ⟨i, c, hi, hget, hee⟩ := nonLastEnvs_mem rid 0 _ e hmem
    subst hee
    constructor
    · intro _
      refine ⟨rfl, ?_⟩
      have hseg := serializeEnvelope_total_chunks_segment (mkNonLast rid (0 + i + 1) c)
      rw [show ascii ",\x22total_chunks\x22:null" =
          ascii ",\x22total_chunks\x22:" ++ ascii "null" from by decide]
      exact hseg
    · intro h
      cases h
  · have heq : e = mkLast rid
        ((drainFull cs (hookFrame meta ++ packets.flatten)).1.length + 1)
        (drainFull cs (hookFrame meta ++ packets.flatten)).2 := by
      simpa using hmem
    subst heq
    constructor
    · intro h
      cases h
    · intro _
      refine ⟨rfl, ?_⟩
      have hseg := serializeEnvelope_total_chunks_segment (mkLast rid
        ((drainFull cs (hookFrame meta ++ packets.flatten)).1.length + 1)
        (drainFull cs (hookFrame meta ++ packets.flatten)).2)
      exact hseg

theorem claim_C3_witness :
    (mkLast [114] 1 (hookFrame [] ++ [1, 2, 3])).total_chunks = some 1 ∧
      hasSegment (ascii ",\x22total_chunks\x22:" ++ decBytes 1)
        (serializeEnvelope (mkLast [114] 1 (hookFrame [] ++ [1, 2, 3]))) := by
  have hmem : mkLast [114] 1 (hookFrame [] ++ [1, 2, 3]) ∈
      hookEmit [114] [] 2187 [[1, 2, 3]] := by
    have h1 : drainFull 2187 (hookFrame []) = ([], hookFrame []) :=
      drainFull_small (by simp [hookFrame_length])
    have h2 : drainFull 2187 (hookFrame [] ++ [1, 2, 3]) =
        ([], hookFrame [] ++ [1, 2, 3]) :=
      drainFull_small (by simp [hookFrame_length])
    rw [hookEmit]
    simp [streamCore, h1, h2, nonLastEnvs]
  exact (claim_C3_amended [114] [] 2400 9992 2187 [[1, 2, 3]] (by decide) (by decide)
    (mkLast [114] 1 (hookFrame [] ++ [1, 2, 3])) hmem).2 rfl

theorem serializeEnvelope_has_key (e : ChunkEnvelope) :
    hasSegment (ascii "\x22total_chunks\x22") (serializeEnvelope e) := by
  obtain ⟨s, t, hst⟩ := serializeEnvelope_total_chunks_segment e
  refine ⟨s ++ [44], ([58] ++
    (match e.total_chunks with
     | none => ascii "null"
     | some n => decBytes n)) ++ t, ?_⟩
  rw [← hst]
  rw [show ascii ",\x22total_chunks\x22:" =
      [44] ++ ascii "\x22total_chunks\x22" ++ [58] from by decide]
  simp [List.append_assoc]

theorem c3_cex_chunk :
    ((hookFrame [] ++ ([List.replicate 9 7] : List (List Nat)).flatten).drop (0 * 1)).take 1 =
      [87] := by
  rfl

theorem c3_cex_len :
    (hookFrame [] ++ ([List.replicate 9 7] : List (List Nat)).flatten).length = 17 := by
  simp [hookFrame_length]

/-- C3 (counterexample): on a successful request with chunk size 1 and a
9-byte body, the first emitted envelope has `is_last = false` and its
serialized JSON nevertheless contains the key `"total_chunks"` (with value
`null`): the `Option` field has no `skip_serializing_if` attribute, so
`serde_json` emits it on every envelope. -/
theorem claim_C3_counterexample :
    resolve_chunk_size [114] 1 ((hookFrame []).length + 9) = some 1 ∧
      ([List.replicate 9 7] : List (List Nat)).flatten.length ≤ 9 ∧
      ¬ (∀ e ∈ hookEmit [114] [] 1 [List.replicate 9 7], e.is_last = false →
          ¬ hasSegment (ascii "\x22total_chunks\x22") (serializeEnvelope e)) := by
  refine ⟨by decide, by decide, ?_⟩
  intro h
  have hget : (drainFull 1 (hookFrame [] ++
      ([List.replicate 9 7] : List (List Nat)).flatten)).1.get? 0 = some [87] := by
    rw [show ([87] : List Nat) = ((hookFrame [] ++
        ([List.replicate 9 7] : List (List Nat)).flatten).drop (0 * 1)).take 1 from
      c3_cex_chunk.symm]
    exact drainFull_get 1 (by norm_num) _ 0 (by rw [c3_cex_len]; norm_num)
  have hmem : mkNonLast [114] 1 [87] ∈ hookEmit [114] [] 1 [List.replicate 9 7] := by
    rw [hookEmit_eq _ _ _ _ (by norm_num)]
    apply List.mem_append_left
    have := nonLastEnvs_get [114] 0 0 _ [87] hget
    rw [show (0 : Nat) + 0 + 1 = 1 from rfl] at this
    exact List.get?_mem this
  exact h _ hmem rfl (serializeEnvelope_has_key _)

/-!
## The disk-backed dispatch queue (`src/queue.rs`)

The queue state holds the `queue_pending` and `queue_inflight` tables as
association lists from sequence number to encoded record bytes, plus the
two `queue_meta` registers.  Inserts always happen at the freshly
allocated `next_seq`, which exceeds every stored key, so the list order
coincides with the ascending key order in which `redb` iterates.
-/

/-- Error kinds of the queue operations, mirroring the `AppError` status
and message pairs of `src/queue.rs`. -/
inductive QErr where
  | uuidTooLong
  | payloadTooLarge
  | queueFull
deriving Repr, DecidableEq

/-- Model of `QueueRecord` (`src/queue.rs`): the uuid as UTF-8 bytes, the
envelope payload bytes, the scheduled send time and the attempt counter. -/
structure QueueRecord where
  uuid : List Nat
  payload : List Nat
  send_after_ms : Int
  attempts : Nat
deriving Repr, DecidableEq

/-- `encode_record`: `uuid_len (1) || uuid || send_after_ms (8 BE, two's
complement) || attempts (4 BE) || payload_len (4 BE) || payload`. -/
def encode_record (r : QueueRecord) : Except QErr (List Nat) :=
  if 255 < r.uuid.length then .error .uuidTooLong
  else if 2 ^ 32 - 1 < r.payload.length then .error .payloadTooLarge
  else .ok (r.uuid.length :: r.uuid ++ beBytes 8 (i64ToU64 r.send_after_ms) ++
    beBytes 4 r.attempts ++ beBytes 4 r.payload.length ++ r.payload)

/-- `decode_record`: parse the fixed prefix, check the uuid is valid
UTF-8, and slice out the payload; trailing bytes are ignored exactly as in
the source. -/
def decode_record (data : List Nat) : Option QueueRecord :=
  if data.length < 17 then none
  else if data.length < 1 + data.headD 0 + 16 then none
  else if isValidUtf8 ((data.drop 1).take (data.headD 0)) = false then none
  else if data.length < 1 + data.headD 0 + 16 +
      fromBe (((data.drop (1 + data.headD 0)).drop 12).take 4) then none
  else some ⟨(data.drop 1).take (data.headD 0),
    ((data.drop (1 + data.headD 0)).drop 16).take
      (fromBe (((data.drop (1 + data.headD 0)).drop 12).take 4)),
    u64ToI64 (fromBe ((data.drop (1 + data.headD 0)).take 8)),
    fromBe (((data.drop (1 + data.headD 0)).drop 8).take 4)⟩

theorem encode_record_ok_length {r : QueueRecord} {bytes : List Nat}
    (h : encode_record r = .ok bytes) :
    bytes.length = 17 + r.uuid.length + r.payload.length := by
  rw [encode_record] at h
  by_cases h1 : 255 < r.uuid.length
  · rw [if_pos h1] at h
    cases h
  · rw [if_neg h1] at h
    by_cases h2 : 2 ^ 32 - 1 < r.payload.length
    · rw [if_pos h2] at h
      cases h
    · rw [if_neg h2] at h
      injection h with h
      rw [← h]
      simp [beBytes_length]
      omega

/-- Round trip of the queue record codec.  The side conditions are the
Rust type invariants (`attempts : u32`, `send_after_ms : i64`, the uuid is
a `String`, hence valid UTF-8). -/
theorem take_append_of_length_eq {l1 l2 : List Nat} {n : Nat} (h : l1.length = n) :
    (l1 ++ l2).take n = l1 := by
  subst h
  exact List.take_left ..

theorem drop_append_of_length_eq {l1 l2 : List Nat} {n : Nat} (h : l1.length = n) :
    (l1 ++ l2).drop n = l2 := by
  subst h
  exact List.drop_left ..

theorem drop_append_split {l1 l2 : List Nat} {k n m : Nat} (h : l1.length = n)
    (hk : k = n + m) : (l1 ++ l2).drop k = l2.drop m := by
  subst hk
  subst h
  exact List.drop_append m

/-- Round trip of the queue record codec.  The side conditions are the
Rust type invariants (`attempts : u32`, `send_after_ms : i64`, the uuid is
a `String`, hence valid UTF-8). -/
theorem decode_encode_record (r : QueueRecord) (bytes : List Nat)
    (henc : encode_record r = .ok bytes)
    (hutf : isValidUtf8 r.uuid = true)
    (hatt : r.attempts < 2 ^ 32)
    (hsa1 : -(2 ^ 63) ≤ r.send_after_ms) (hsa2 : r.send_after_ms < 2 ^ 63) :
    decode_record bytes = some r := by
  have hu : r.uuid.length ≤ 255 := by
    by_contra hc
    rw [encode_record, if_pos (by omega)] at henc
    cases henc
  have hp : r.payload.length ≤ 2 ^ 32 - 1 := by
    by_contra hc
    rw [encode_record, if_neg (by omega), if_pos (by omega)] at henc
    cases henc
  have hbytes : bytes = r.uuid.length :: (r.uuid ++ (beBytes 8 (i64ToU64 r.send_after_ms) ++
      (beBytes 4 r.attempts ++ (beBytes 4 r.payload.length ++ r.payload)))) := by
    rw [encode_record, if_neg (by omega), if_neg (by omega)] at henc
    injection henc with henc
    rw [← henc]
    simp [List.append_assoc]
  have hlen := encode_record_ok_length henc
  subst hbytes
  have hhead : (r.uuid.length :: (r.uuid ++ (beBytes 8 (i64ToU64 r.send_after_ms) ++
      (beBytes 4 r.attempts ++ (beBytes 4 r.payload.length ++ r.payload))))).headD 0 =
      r.uuid.length := rfl
  have htake : ((r.uuid.length :: (r.uuid ++ (beBytes 8 (i64ToU64 r.send_after_ms) ++
      (beBytes 4 r.attempts ++ (beBytes 4 r.payload.length ++ r.payload))))).drop 1).take
        r.uuid.length = r.uuid := List.take_left ..
  have hrest : (r.uuid.length :: (r.uuid ++ (beBytes 8 (i64ToU64 r.send_after_ms) ++
      (beBytes 4 r.attempts ++ (beBytes 4 r.payload.length ++ r.payload))))).drop
        (1 + r.uuid.length) =
      beBytes 8 (i64ToU64 r.send_after_ms) ++
        (beBytes 4 r.attempts ++ (beBytes 4 r.payload.length ++ r.payload)) := by
    rw [show (1 + r.uuid.length) = r.uuid.length + 1 from by omega]
    rw [List.drop_succ_cons]
    exact drop_append_of_length_eq rfl
  have htake8 : (beBytes 8 (i64ToU64 r.send_after_ms) ++
      (beBytes 4 r.attempts ++ (beBytes 4 r.payload.length ++ r.payload))).take 8 =
      beBytes 8 (i64ToU64 r.send_after_ms) :=
    take_append_of_length_eq (beBytes_length ..)
  have hdrop8 : (beBytes 8 (i64ToU64 r.send_after_ms) ++
      (beBytes 4 r.attempts ++ (beBytes 4 r.payload.length ++ r.payload))).drop 8 =
      beBytes 4 r.attempts ++ (beBytes 4 r.payload.length ++ r.payload) :=
    drop_append_of_length_eq (beBytes_length ..)
  have hdrop12 : (beBytes 8 (i64ToU64 r.send_after_ms) ++
      (beBytes 4 r.attempts ++ (beBytes 4 r.payload.length ++ r.payload))).drop 12 =
      beBytes 4 r.payload.length ++ r.payload := by
    rw [drop_append_split (beBytes_length ..) (show (12 : Nat) = 8 + 4 from rfl)]
    exact drop_append_of_length_eq (beBytes_length ..)
  have hdrop16 : (beBytes 8 (i64ToU64 r.send_after_ms) ++
      (beBytes 4 r.attempts ++ (beBytes 4 r.payload.length ++ r.payload))).drop 16 =
      r.payload := by
    rw [drop_append_split (beBytes_length ..) (show (16 : Nat) = 8 + 8 from rfl)]
    rw [drop_append_split (beBytes_length ..) (show (8 : Nat) = 4 + 4 from rfl)]
    exact drop_append_of_length_eq (beBytes_length ..)
  have hplen : fromBe ((beBytes 4 r.payload.length ++ r.payload).take 4) =
      r.payload.length := by
    rw [take_append_of_length_eq (beBytes_length ..)]
    rw [fromBe_beBytes]
    exact Nat.mod_eq_of_lt (by norm_num; omega)
  have hatt4 : fromBe ((beBytes 4 r.attempts ++ (beBytes 4 r.payload.length ++
      r.payload)).take 4) = r.attempts := by
    rw [take_append_of_length_eq (beBytes_length ..)]
    rw [fromBe_beBytes]
    exact Nat.mod_eq_of_lt (by norm_num; omega)
  have hsa : u64ToI64 (fromBe (beBytes 8 (i64ToU64 r.send_after_ms))) = r.send_after_ms := by
    rw [fromBe_beBytes]
    rw [Nat.mod_eq_of_lt (by
      have := i64ToU64_lt r.send_after_ms
      norm_num
      omega)]
    exact i64_roundtrip r.send_after_ms hsa1 hsa2
  rw [decode_record]
  rw [if_neg (by push_neg; omega)]
  rw [hhead, htake, hrest, hutf, hdrop12, hplen, htake8, hsa, hdrop8, hatt4, hdrop16]
  rw [if_neg (by push_neg; omega)]
  rw [if_neg (by simp)]
  rw [if_neg (by push_neg; omega)]
  rw [List.take_length]

/-- Decoding any successful encoding recovers the uuid and payload fields
(no side conditions: these two fields are stored verbatim). -/
theorem decode_of_encode_fields (r rec : QueueRecord) (bytes : List Nat)
    (henc : encode_record r = .ok bytes) (hdec : decode_record bytes = some rec) :
    rec.uuid = r.uuid ∧ rec.payload = r.payload := by
  have hu : r.uuid.length ≤ 255 := by
    by_contra hc
    rw [encode_record, if_pos (by omega)] at henc
    cases henc
  have hp : r.payload.length ≤ 2 ^ 32 - 1 := by
    by_contra hc
    rw [encode_record, if_neg (by omega), if_pos (by omega)] at henc
    cases henc
  have hbytes : bytes = r.uuid.length :: (r.uuid ++ (beBytes 8 (i64ToU64 r.send_after_ms) ++
      (beBytes 4 r.attempts ++ (beBytes 4 r.payload.length ++ r.payload)))) := by
    rw [encode_record, if_neg (by omega), if_neg (by omega)] at henc
    injection henc with henc
    rw [← henc]
    simp [List.append_assoc]
  have hlen := encode_record_ok_length henc
  subst hbytes
  have hhead : (r.uuid.length :: (r.uuid ++ (beBytes 8 (i64ToU64 r.send_after_ms) ++
      (beBytes 4 r.attempts ++ (beBytes 4 r.payload.length ++ r.payload))))).headD 0 =
      r.uuid.length := rfl
  have htake : ((r.uuid.length :: (r.uuid ++ (beBytes 8 (i64ToU64 r.send_after_ms) ++
      (beBytes 4 r.attempts ++ (beBytes 4 r.payload.length ++ r.payload))))).drop 1).take
        r.uuid.length = r.uuid := List.take_left ..
  have hrest : (r.uuid.length :: (r.uuid ++ (beBytes 8 (i64ToU64 r.send_after_ms) ++
      (beBytes 4 r.attempts ++ (beBytes 4 r.payload.length ++ r.payload))))).drop
        (1 + r.uuid.length) =
      beBytes 8 (i64ToU64 r.send_after_ms) ++
        (beBytes 4 r.attempts ++ (beBytes 4 r.payload.length ++ r.payload)) := by
    rw [show (1 + r.uuid.length) = r.uuid.length + 1 from by omega]
    rw [List.drop_succ_cons]
    exact drop_append_of_length_eq rfl
  have hdrop12 : (beBytes 8 (i64ToU64 r.send_after_ms) ++
      (beBytes 4 r.attempts ++ (beBytes 4 r.payload.length ++ r.payload))).drop 12 =
      beBytes 4 r.payload.length ++ r.payload := by
    rw [drop_append_split (beBytes_length ..) (show (12 : Nat) = 8 + 4 from rfl)]
    exact drop_append_of_length_eq (beBytes_length ..)
  have hdrop16 : (beBytes 8 (i64ToU64 r.send_after_ms) ++
      (beBytes 4 r.attempts ++ (beBytes 4 r.payload.length ++ r.payload))).drop 16 =
      r.payload := by
    rw [drop_append_split (beBytes_length ..) (show (16 : Nat) = 8 + 8 from rfl)]
    rw [drop_append_split (beBytes_length ..) (show (8 : Nat) = 4 + 4 from rfl)]
    exact drop_append_of_length_eq (beBytes_length ..)
  have hplen : fromBe ((beBytes 4 r.payload.length ++ r.payload).take 4) =
      r.payload.length := by
    rw [take_append_of_length_eq (beBytes_length ..)]
    rw [fromBe_beBytes]
    exact Nat.mod_eq_of_lt (by norm_num; omega)
  rw [decode_record] at hdec
  rw [if_neg (by push_neg; omega)] at hdec
  rw [hhead, htake, hrest, hdrop12, hplen, hdrop16] at hdec
  rw [if_neg (by push_neg; omega)] at hdec
  by_cases hvu : isValidUtf8 r.uuid = true
  · rw [hvu] at hdec
    rw [if_neg (by simp)] at hdec
    rw [if_neg (by push_neg; omega)] at hdec
    rw [List.take_length] at hdec
    injection hdec with hdec
    rw [← hdec]
    exact ⟨rfl, rfl⟩
  · rw [eq_false_of_ne_true hvu] at hdec
    rw [if_pos rfl] at hdec
    cases hdec

/-- C9: encoding then decoding any `QueueRecord` whose uuid is at most
255 bytes of (valid) UTF-8 and whose payload is at most `2^32 - 1` bytes
succeeds and returns the original record.  The remaining hypotheses are
the machine-type ranges of `attempts : u32` and `send_after_ms : i64`. -/
theorem claim_C9 (r : QueueRecord)
    (huuid : r.uuid.length ≤ 255) (hutf : isValidUtf8 r.uuid = true)
    (hpay : r.payload.length ≤ 2 ^ 32 - 1)
    (hatt : r.attempts < 2 ^ 32)
    (hsa1 : -(2 ^ 63) ≤ r.send_after_ms) (hsa2 : r.send_after_ms < 2 ^ 63) :
    ∃ bytes, encode_record r = .ok bytes ∧ decode_record bytes = some r := by
  have henc : encode_record r = .ok (r.uuid.length :: r.uuid ++
      beBytes 8 (i64ToU64 r.send_after_ms) ++ beBytes 4 r.attempts ++
      beBytes 4 r.payload.length ++ r.payload) := by
    rw [encode_record, if_neg (by omega), if_neg (by omega)]
  exact ⟨_, henc, decode_encode_record r _ henc hutf hatt hsa1 hsa2⟩

theorem claim_C9_witness :
    ∃ bytes, encode_record ⟨[97], [1, 2, 3], 5, 0⟩ = .ok bytes ∧
      decode_record bytes = some ⟨[97], [1, 2, 3], 5, 0⟩ :=
  claim_C9 ⟨[97], [1, 2, 3], 5, 0⟩ (by decide) (by decide) (by norm_num)
    (by norm_num) (by norm_num) (by norm_num)

/-- Persistent queue state: the two tables as `(seq, record bytes)`
association lists and the two `queue_meta` registers.  `init_queue_db`
produces `⟨[], [], 0, 0⟩`. -/
structure QueueState where
  pending : List (Nat × List Nat)
  inflight : List (Nat × List Nat)
  next_seq : Nat
  queue_bytes : Nat
deriving Repr, DecidableEq

/-- The freshly initialized queue (`init_queue_db`). -/
def initQueueState : QueueState := ⟨[], [], 0, 0⟩

/-- Table lookup by sequence number (`redb` `get`/`remove` return value). -/
def lookupSeq (l : List (Nat × List Nat)) (seq : Nat) : Option (List Nat) :=
  (l.find? (fun p => p.1 == seq)).map (fun p => p.2)

/-- Table removal by sequence number. -/
def eraseSeq (l : List (Nat × List Nat)) (seq : Nat) : List (Nat × List Nat) :=
  l.filter (fun p => p.1 != seq)

/-- Sum of the stored record byte lengths of a table. -/
def sumLens (l : List (Nat × List Nat)) : Nat := (l.map (fun p => p.2.length)).sum

/-- `enqueue_record` (`src/queue.rs`): encode, check the byte budget with
a saturating 64-bit addition, and on success insert at `next_seq`,
bump `next_seq` and update `queue_bytes`, all in one transaction.  An
error return models the transaction being dropped without commit: the
caller keeps the unchanged state. -/
def enqueue_record (st : QueueState) (rec : QueueRecord) (maxBytes : Nat) :
    Except QErr QueueState :=
  match encode_record rec with
  | .error e => .error e
  | .ok bytes =>
    if maxBytes < satAdd64 st.queue_bytes bytes.length then .error .queueFull
    else .ok ⟨st.pending ++ [(st.next_seq, bytes)], st.inflight, st.next_seq + 1,
      satAdd64 st.queue_bytes bytes.length⟩

/-- Readiness test of `claim_next`: decodable records are ready when
`send_after_ms ≤ now`; undecodable records are treated as ready. -/
def recordReady (now : Int) (bytes : List Nat) : Bool :=
  match decode_record bytes with
  | some rec => decide (rec.send_after_ms ≤ now)
  | none => true

/-- `claim_next`: scan `queue_pending` in ascending sequence order (list
order, by the fresh-key insertion invariant), move the first ready record
to `queue_inflight` in the same transaction; a miss commits nothing. -/
def claim_next (st : QueueState) (now : Int) :
    QueueState × Option (Nat × List Nat) :=
  match st.pending.find? (fun p => recordReady now p.2) with
  | some (seq, bytes) =>
    (⟨eraseSeq st.pending seq, st.inflight ++ [(seq, bytes)], st.next_seq,
      st.queue_bytes⟩, some (seq, bytes))
  | none => (st, none)

/-- `drop_inflight`: remove a claimed record and subtract its length from
`queue_bytes` (saturating subtraction); removing an absent key changes
nothing. -/
def drop_inflight (st : QueueState) (seq : Nat) : QueueState :=
  match lookupSeq st.inflight seq with
  | some bytes =>
    ⟨st.pending, eraseSeq st.inflight seq, st.next_seq, st.queue_bytes - bytes.length⟩
  | none => st

/-- `requeue_inflight`: delete from `queue_inflight`, re-encode the retry
record and insert it into `queue_pending` under a fresh sequence number,
in the same transaction; `queue_bytes` is not touched. -/
def requeue_inflight (st : QueueState) (seq : Nat) (rec : QueueRecord) :
    Except QErr QueueState :=
  match encode_record rec with
  | .error e => .error e
  | .ok bytes =>
    .ok ⟨st.pending ++ [(st.next_seq, bytes)], eraseSeq st.inflight seq,
      st.next_seq + 1, st.queue_bytes⟩

/-- The retry record the worker builds on a non-terminal send failure
(`worker_loop`): same record with bumped attempts and a new send time. -/
def retryRecord (rec : QueueRecord) (sa : Int) (att : Nat) : QueueRecord :=
  { rec with send_after_ms := sa, attempts := att }

/-- `MAX_ATTEMPTS` and `RETRY_DELAY_MS` of `src/queue.rs`. -/
def MAX_ATTEMPTS : Nat := 5

def RETRY_DELAY_MS : Int := 500

/-- The failure-handling tail of `worker_loop` for a claimed record
`(seq, record)` whose send failed: bump `attempts` (saturating u32); at
`MAX_ATTEMPTS` drop the record, otherwise write the retry record back to
pending with `send_after_ms = now + RETRY_DELAY_MS`.  The worker ignores
a requeue error (`let _ = ...`). -/
def workerHandleFailure (st : QueueState) (seq : Nat) (rec : QueueRecord)
    (now : Int) : QueueState :=
  if MAX_ATTEMPTS ≤ satAdd32 rec.attempts 1 then drop_inflight st seq
  else
    match requeue_inflight st seq
      (retryRecord rec (now + RETRY_DELAY_MS) (satAdd32 rec.attempts 1)) with
    | .ok st2 => st2
    | .error _ => st

/-- C7: `enqueue_record` fails with the service-unavailable "queue full"
error exactly when `queue_bytes` plus the encoded record length exceeds
`queue_max_bytes`; otherwise it inserts at `seq = next_seq`, increments
`next_seq` and adds the record length to `queue_bytes`, in one committed
transaction.  On the error path the function returns before `commit`, so
no state is produced (the model's `Except.error` carries no state and the
caller keeps the old one).  The side condition rules out saturation of
the 64-bit byte counter. -/
theorem claim_C7 (st : QueueState) (rec : QueueRecord) (M : Nat) (bytes : List Nat)
    (henc : encode_record rec = .ok bytes)
    (hnosat : st.queue_bytes + bytes.length ≤ 2 ^ 64 - 1) :
    (enqueue_record st rec M = .error .queueFull ↔
        M < st.queue_bytes + bytes.length) ∧
      (st.queue_bytes + bytes.length ≤ M →
        enqueue_record st rec M =
          .ok ⟨st.pending ++ [(st.next_seq, bytes)], st.inflight, st.next_seq + 1,
            st.queue_bytes + bytes.length⟩) := by
  have hsat : satAdd64 st.queue_bytes bytes.length = st.queue_bytes + bytes.length := by
    rw [satAdd64]
    omega
  rw [enqueue_record, henc]
  simp only [hsat]
  constructor
  · constructor
    · intro h
      by_cases hc : M < st.queue_bytes + bytes.length
      · exact hc
      · rw [if_neg hc] at h
        cases h
    · intro hc
      rw [if_pos hc]
  · intro hle
    rw [if_neg (by omega)]

def encBytesC7 : List Nat :=
  [1, 97, 0, 0, 0, 0, 0, 0, 0, 5, 0, 0, 0, 0, 0, 0, 0, 3, 1, 2, 3]

theorem claim_C7_witness :
    (enqueue_record initQueueState ⟨[97], [1, 2, 3], 5, 0⟩ 1000 = .error .queueFull ↔
        1000 < initQueueState.queue_bytes + 21) ∧
      (initQueueState.queue_bytes + 21 ≤ 1000 →
        enqueue_record initQueueState ⟨[97], [1, 2, 3], 5, 0⟩ 1000 =
          .ok ⟨initQueueState.pending ++ [(initQueueState.next_seq,
              encBytesC7)], initQueueState.inflight, initQueueState.next_seq + 1,
            initQueueState.queue_bytes + 21⟩) := by
  have h := claim_C7 initQueueState ⟨[97], [1, 2, 3], 5, 0⟩ 1000 encBytesC7
    (by rfl) (by decide)
  rw [show encBytesC7.length = 21 from by decide] at h
  exact h

theorem lookupSeq_erase (l : List (Nat × List Nat)) (seq : Nat) :
    lookupSeq (eraseSeq l seq) seq = none := by
  rw [lookupSeq, eraseSeq]
  have h : (l.filter (fun p => p.1 != seq)).find? (fun p => p.1 == seq) = none := by
    rw [List.find?_eq_none]
    intro x hx
    have hne := List.of_mem_filter hx
    simp only [bne_iff_ne, ne_eq] at hne
    simp [hne]
  rw [h]
  rfl

theorem drop_inflight_lookup (st : QueueState) (seq : Nat) :
    lookupSeq (drop_inflight st seq).inflight seq = none := by
  rw [drop_inflight]
  cases h : lookupSeq st.inflight seq with
  | none => simpa using h
  | some bytes => simpa using lookupSeq_erase st.inflight seq

/-- C6: on a non-terminal send failure for a claimed record the worker
bumps `attempts` by exactly one; the record is dropped from
`queue_inflight` precisely when the bumped count reaches
`MAX_ATTEMPTS = 5`, and otherwise it is removed from `queue_inflight`
and re-inserted into `queue_pending` under the freshly allocated
`next_seq` with `send_after_ms = now + RETRY_DELAY_MS` in one transaction
(`requeue_inflight` performs both table updates before its single
commit).  The hypotheses are the u32 range of `attempts` (so the
saturating bump is an exact increment) and the encodability of the
record, both guaranteed for records decoded from the store. -/
theorem claim_C6 (st : QueueState) (seq : Nat) (rec : QueueRecord) (now : Int)
    (hatt : rec.attempts ≤ 2 ^ 32 - 2)
    (huuid : rec.uuid.length ≤ 255) (hpay : rec.payload.length ≤ 2 ^ 32 - 1) :
    satAdd32 rec.attempts 1 = rec.attempts + 1 ∧
      (MAX_ATTEMPTS ≤ rec.attempts + 1 →
        workerHandleFailure st seq rec now = drop_inflight st seq ∧
          lookupSeq (workerHandleFailure st seq rec now).inflight seq = none) ∧
      (rec.attempts + 1 < MAX_ATTEMPTS →
        ∃ bytes,
          encode_record (retryRecord rec (now + RETRY_DELAY_MS) (rec.attempts + 1)) =
              .ok bytes ∧
            workerHandleFailure st seq rec now =
              ⟨st.pending ++ [(st.next_seq, bytes)], eraseSeq st.inflight seq,
                st.next_seq + 1, st.queue_bytes⟩) := by
  have hsat : satAdd32 rec.attempts 1 = rec.attempts + 1 := by
    rw [satAdd32]
    omega
  refine ⟨hsat, ?_, ?_⟩
  · intro hge
    have hw : workerHandleFailure st seq rec now = drop_inflight st seq := by
      rw [workerHandleFailure, hsat, if_pos hge]
    exact ⟨hw, by rw [hw]; exact drop_inflight_lookup st seq⟩
  · intro hlt
    have henc : encode_record (retryRecord rec (now + RETRY_DELAY_MS)
        (rec.attempts + 1)) = .ok ((retryRecord rec (now + RETRY_DELAY_MS)
          (rec.attempts + 1)).uuid.length :: (retryRecord rec (now + RETRY_DELAY_MS)
          (rec.attempts + 1)).uuid ++
        beBytes 8 (i64ToU64 (retryRecord rec (now + RETRY_DELAY_MS)
          (rec.attempts + 1)).send_after_ms) ++
        beBytes 4 (retryRecord rec (now + RETRY_DELAY_MS) (rec.attempts + 1)).attempts ++
        beBytes 4 (retryRecord rec (now + RETRY_DELAY_MS)
          (rec.attempts + 1)).payload.length ++
        (retryRecord rec (now + RETRY_DELAY_MS) (rec.attempts + 1)).payload) := by
      rw [encode_record]
      rw [if_neg (by simp [retryRecord]; omega), if_neg (by simp [retryRecord]; omega)]
    refine ⟨_, henc, ?_⟩
    rw [workerHandleFailure, hsat, if_neg (by omega), requeue_inflight, henc]

def c6WitnessRec : QueueRecord := ⟨[97], [1], 5, 3⟩

theorem claim_C6_witness :
    satAdd32 c6WitnessRec.attempts 1 = c6WitnessRec.attempts + 1 ∧
      (MAX_ATTEMPTS ≤ c6WitnessRec.attempts + 1 →
        workerHandleFailure initQueueState 0 c6WitnessRec 7 =
            drop_inflight initQueueState 0 ∧
          lookupSeq (workerHandleFailure initQueueState 0 c6WitnessRec 7).inflight 0 =
            none) ∧
      (c6WitnessRec.attempts + 1 < MAX_ATTEMPTS →
        ∃ bytes,
          encode_record (retryRecord c6WitnessRec (7 + RETRY_DELAY_MS)
              (c6WitnessRec.attempts + 1)) = .ok bytes ∧
            workerHandleFailure initQueueState 0 c6WitnessRec 7 =
              ⟨initQueueState.pending ++ [(initQueueState.next_seq, bytes)],
                eraseSeq initQueueState.inflight 0, initQueueState.next_seq + 1,
                initQueueState.queue_bytes⟩) :=
  claim_C6 initQueueState 0 c6WitnessRec 7 (by norm_num [c6WitnessRec])
    (by decide) (by norm_num [c6WitnessRec])

theorem sumLens_append (l1 l2 : List (Nat × List Nat)) :
    sumLens (l1 ++ l2) = sumLens l1 + sumLens l2 := by
  simp [sumLens]

theorem eraseSeq_of_not_mem (l : List (Nat × List Nat)) (seq : Nat)
    (h : seq ∉ l.map Prod.fst) : eraseSeq l seq = l := by
  induction l with
  | nil => rfl
  | cons p l ih =>
    simp only [List.map_cons, List.mem_cons] at h
    push_neg at h
    rw [eraseSeq, List.filter_cons]
    rw [if_pos (by simp; omega)]
    rw [show List.filter (fun p => p.1 != seq) l = eraseSeq l seq from rfl]
    rw [ih h.2]

theorem eraseSeq_sum_mem (l : List (Nat × List Nat)) (seq : Nat) (bytes : List Nat)
    (hnd : (l.map Prod.fst).Nodup) (hmem : (seq, bytes) ∈ l) :
    sumLens (eraseSeq l seq) + bytes.length = sumLens l := by
  induction l with
  | nil => simp at hmem
  | cons p l ih =>
    simp only [List.map_cons, List.nodup_cons] at hnd
    by_cases hp : p.1 = seq
    · have hbytes : p.2 = bytes := by
        rcases List.mem_cons.mp hmem with h | h
        · rw [← h]
        · exfalso
          apply hnd.1
          exact List.mem_map.mpr ⟨(seq, bytes), h, by simp [hp]⟩
      rw [eraseSeq, List.filter_cons, if_neg (by simp [hp])]
      rw [show List.filter (fun p => p.1 != seq) l = eraseSeq l seq from rfl]
      rw [eraseSeq_of_not_mem l seq (by rw [← hp]; exact hnd.1)]
      simp [sumLens, hbytes]
      omega
    · have hmem2 : (seq, bytes) ∈ l := by
        rcases List.mem_cons.mp hmem with h | h
        · exfalso
          apply hp
          rw [← h]
        · exact h
      rw [eraseSeq, List.filter_cons, if_pos (by simp; omega)]
      rw [show List.filter (fun p => p.1 != seq) l = eraseSeq l seq from rfl]
      simp only [sumLens, List.map_cons, List.sum_cons]
      have := ih hnd.2 hmem2
      simp only [sumLens] at this
      omega

theorem eraseSeq_subset (l : List (Nat × List Nat)) (seq : Nat) :
    ∀ p ∈ eraseSeq l seq, p ∈ l := by
  intro p hp
  exact List.mem_of_mem_filter hp

theorem eraseSeq_key_ne (l : List (Nat × List Nat)) (seq : Nat) :
    ∀ p ∈ eraseSeq l seq, p.1 ≠ seq := by
  intro p hp
  have := List.of_mem_filter hp
  simpa using this

theorem lookupSeq_some_mem {l : List (Nat × List Nat)} {seq : Nat} {bytes : List Nat}
    (h : lookupSeq l seq = some bytes) : (seq, bytes) ∈ l := by
  rw [lookupSeq] at h
  cases hf : l.find? (fun p => p.1 == seq) with
  | none => rw [hf] at h; cases h
  | some p =>
    rw [hf] at h
    have hp := List.find?_some hf
    have hmem := List.mem_of_find?_eq_some hf
    have h1 : p.1 = seq := by simpa using hp
    have h2 : p.2 = bytes := by simpa using h
    have hpe : p = (seq, bytes) := Prod.ext h1 h2
    rw [← hpe]
    exact hmem

theorem nodup_map_fst_erase (l : List (Nat × List Nat)) (seq : Nat)
    (h : (l.map Prod.fst).Nodup) : ((eraseSeq l seq).map Prod.fst).Nodup := by
  have hsub : List.Sublist (eraseSeq l seq) l := List.filter_sublist l
  exact (hsub.map Prod.fst).nodup h

theorem nodup_append_single {l : List Nat} {a : Nat} (h : l.Nodup) (ha : a ∉ l) :
    (l ++ [a]).Nodup := by
  rw [List.nodup_append]
  refine ⟨h, List.nodup_singleton a, ?_⟩
  intro x hx hxa
  simp only [List.mem_singleton] at hxa
  subst hxa
  exact ha hx

/-- The state invariant of the dispatch queue at commit boundaries.  Its
first field is the byte-accounting equation of C4; the remaining fields
are the structural facts that make every operation preserve it: key
uniqueness within and across the two tables, freshness of `next_seq`, and
every stored byte string being a record encoding. -/
structure QInv (M : Nat) (st : QueueState) : Prop where
  bytes_eq : st.queue_bytes = sumLens st.pending + sumLens st.inflight
  bytes_le : st.queue_bytes ≤ M
  pending_nodup : (st.pending.map Prod.fst).Nodup
  inflight_nodup : (st.inflight.map Prod.fst).Nodup
  disj : ∀ s ∈ st.pending.map Prod.fst, s ∉ st.inflight.map Prod.fst
  pending_lt : ∀ p ∈ st.pending, p.1 < st.next_seq
  inflight_lt : ∀ p ∈ st.inflight, p.1 < st.next_seq
  pending_enc : ∀ p ∈ st.pending, ∃ r, encode_record r = Except.ok p.2
  inflight_enc : ∀ p ∈ st.inflight, ∃ r, encode_record r = Except.ok p.2

/-- One committed queue operation, as the system performs them: an
enqueue through the single writer (successful or rejected), a claim scan,
a drop of a claimed record, or a worker requeue of a claimed record that
decoded successfully (the worker builds the retry record from that
decoded record); a failed operation drops its transaction and leaves the
state unchanged. -/
inductive QueueStep (M : Nat) : QueueState → QueueState → Prop where
  | enqueue_ok {st st2 : QueueState} (rec : QueueRecord)
      (h : enqueue_record st rec M = .ok st2) : QueueStep M st st2
  | enqueue_err {st : QueueState} (rec : QueueRecord) (e : QErr)
      (h : enqueue_record st rec M = .error e) : QueueStep M st st
  | claim {st : QueueState} (now : Int) : QueueStep M st (claim_next st now).1
  | drop {st : QueueState} (seq : Nat) : QueueStep M st (drop_inflight st seq)
  | requeue_ok {st st2 : QueueState} (seq : Nat) (bytes : List Nat)
      (rec : QueueRecord) (sa : Int) (att : Nat)
      (h1 : lookupSeq st.inflight seq = some bytes)
      (h2 : decode_record bytes = some rec)
      (h3 : requeue_inflight st seq (retryRecord rec sa att) = .ok st2) :
      QueueStep M st st2
  | requeue_err {st : QueueState} (seq : Nat) (rec : QueueRecord) (e : QErr)
      (h : requeue_inflight st seq rec = .error e) : QueueStep M st st

theorem QInv_init (M : Nat) : QInv M initQueueState := by
  refine ⟨rfl, Nat.zero_le M, ?_, ?_, ?_, ?_, ?_, ?_, ?_⟩ <;> simp [initQueueState, sumLens]

theorem eraseSeq_keys_subset (l : List (Nat × List Nat)) (seq : Nat) :
    ∀ s ∈ (eraseSeq l seq).map Prod.fst, s ∈ l.map Prod.fst := by
  intro s hs
  obtain ⟨q, hq, hqe⟩ := List.mem_map.mp hs
  exact List.mem_map.mpr ⟨q, eraseSeq_subset l seq q hq, hqe⟩

theorem QInv_step {M : Nat} {st st2 : QueueState} (hM : M ≤ 2 ^ 64 - 2)
    (hinv : QInv M st) (hstep : QueueStep M st st2) : QInv M st2 := by
  cases hstep with
  | enqueue_err rec e h => exact hinv
  | requeue_err seq rec e h => exact hinv
  | enqueue_ok rec h =>
    unfold enqueue_record at h
    split at h
    · cases h
    · rename_i bytes hb
      by_cases hlt : M < satAdd64 st.queue_bytes bytes.length
      · rw [if_pos hlt] at h
        cases h
      · rw [if_neg hlt] at h
        injection h with h
        subst h
        have hsat : satAdd64 st.queue_bytes bytes.length =
            st.queue_bytes + bytes.length := by
          rw [satAdd64] at hlt ⊢
          omega
        have hfresh : st.next_seq ∉ st.pending.map Prod.fst := by
          intro hc
          obtain ⟨p, hp, hpe⟩ := List.mem_map.mp hc
          have := hinv.pending_lt p hp
          omega
        refine ⟨?_, ?_, ?_, ?_, ?_, ?_, ?_, ?_, ?_⟩
        · show satAdd64 st.queue_bytes bytes.length =
            sumLens (st.pending ++ [(st.next_seq, bytes)]) + sumLens st.inflight
          rw [hsat, sumLens_append]
          have hb1 : sumLens [(st.next_seq, bytes)] = bytes.length := by simp [sumLens]
          rw [hb1]
          have := hinv.bytes_eq
          omega
        · show satAdd64 st.queue_bytes bytes.length ≤ M
          omega
        · show ((st.pending ++ [(st.next_seq, bytes)]).map Prod.fst).Nodup
          rw [List.map_append]
          exact nodup_append_single hinv.pending_nodup hfresh
        · exact hinv.inflight_nodup
        · intro s hs
          rw [List.map_append] at hs
          rcases List.mem_append.mp hs with h2 | h2
          · exact hinv.disj s h2
          · have : s = st.next_seq := by simpa using h2
            subst this
            intro hc
            obtain ⟨p, hp, hpe⟩ := List.mem_map.mp hc
            have := hinv.inflight_lt p hp
            omega
        · intro p hp
          rcases List.mem_append.mp hp with h2 | h2
          · have := hinv.pending_lt p h2
            show p.1 < st.next_seq + 1
            omega
          · have : p = (st.next_seq, bytes) := by simpa using h2
            subst this
            show st.next_seq < st.next_seq + 1
            omega
        · intro p hp
          have := hinv.inflight_lt p hp
          show p.1 < st.next_seq + 1
          omega
        · intro p hp
          rcases List.mem_append.mp hp with h2 | h2
          · exact hinv.pending_enc p h2
          · have : p = (st.next_seq, bytes) := by simpa using h2
            subst this
            exact ⟨rec, hb⟩
        · exact hinv.inflight_enc
  | claim now =>
    unfold claim_next
    split
    · rename_i seq bytes hf
      have hmemP : (seq, bytes) ∈ st.pending := List.mem_of_find?_eq_some hf
      have hsum := eraseSeq_sum_mem st.pending seq bytes hinv.pending_nodup hmemP
      have hkey : seq ∈ st.pending.map Prod.fst :=
        List.mem_map.mpr ⟨(seq, bytes), hmemP, rfl⟩
      have hnotin : seq ∉ st.inflight.map Prod.fst := hinv.disj seq hkey
      refine ⟨?_, ?_, ?_, ?_, ?_, ?_, ?_, ?_, ?_⟩
      · show st.queue_bytes =
          sumLens (eraseSeq st.pending seq) + sumLens (st.inflight ++ [(seq, bytes)])
        rw [sumLens_append]
        have hb1 : sumLens [(seq, bytes)] = bytes.length := by simp [sumLens]
        rw [hb1]
        have := hinv.bytes_eq
        omega
      · exact hinv.bytes_le
      · exact nodup_map_fst_erase st.pending seq hinv.pending_nodup
      · show ((st.inflight ++ [(seq, bytes)]).map Prod.fst).Nodup
        rw [List.map_append]
        exact nodup_append_single hinv.inflight_nodup hnotin
      · intro s hs
        obtain ⟨q, hq, hqe⟩ := List.mem_map.mp hs
        subst hqe
        rw [List.map_append]
        intro hc
        rcases List.mem_append.mp hc with h2 | h2
        · exact hinv.disj q.1
            (List.mem_map.mpr ⟨q, eraseSeq_subset st.pending seq q hq, rfl⟩) h2
        · have : q.1 = seq := by simpa using h2
          exact eraseSeq_key_ne st.pending seq q hq this
      · intro p hp
        exact hinv.pending_lt p (eraseSeq_subset st.pending seq p hp)
      · intro p hp
        rcases List.mem_append.mp hp with h2 | h2
        · exact hinv.inflight_lt p h2
        · have : p = (seq, bytes) := by simpa using h2
          subst this
          exact hinv.pending_lt (seq, bytes) hmemP
      · intro p hp
        exact hinv.pending_enc p (eraseSeq_subset st.pending seq p hp)
      · intro p hp
        rcases List.mem_append.mp hp with h2 | h2
        · exact hinv.inflight_enc p h2
        · have : p = (seq, bytes) := by simpa using h2
          subst this
          exact hinv.pending_enc (seq, bytes) hmemP
    · exact hinv
  | drop seq =>
    unfold drop_inflight
    split
    · rename_i bytes hl
      have hmemI : (seq, bytes) ∈ st.inflight := lookupSeq_some_mem hl
      have hsum := eraseSeq_sum_mem st.inflight seq bytes hinv.inflight_nodup hmemI
      refine ⟨?_, ?_, ?_, ?_, ?_, ?_, ?_, ?_, ?_⟩
      · show st.queue_bytes - bytes.length =
          sumLens st.pending + sumLens (eraseSeq st.inflight seq)
        have := hinv.bytes_eq
        omega
      · show st.queue_bytes - bytes.length ≤ M
        have := hinv.bytes_le
        omega
      · exact hinv.pending_nodup
      · exact nodup_map_fst_erase st.inflight seq hinv.inflight_nodup
      · intro s hs
        intro hc
        exact hinv.disj s hs (eraseSeq_keys_subset st.inflight seq s hc)
      · exact hinv.pending_lt
      · intro p hp
        exact hinv.inflight_lt p (eraseSeq_subset st.inflight seq p hp)
      · exact hinv.pending_enc
      · intro p hp
        exact hinv.inflight_enc p (eraseSeq_subset st.inflight seq p hp)
    · exact hinv
  | requeue_ok seq bytes rec sa att hl hdec hreq =>
    unfold requeue_inflight at hreq
    split at hreq
    · cases hreq
    · rename_i bytes2 he
      injection hreq with hreq
      subst hreq
      have hmemI : (seq, bytes) ∈ st.inflight := lookupSeq_some_mem hl
      obtain ⟨r0, hr0⟩ := hinv.inflight_enc (seq, bytes) hmemI
      have hfields := decode_of_encode_fields r0 rec bytes hr0 hdec
      have hlen1 := encode_record_ok_length hr0
      have hlen2 := encode_record_ok_length he
      have hlen : bytes2.length = bytes.length := by
        rw [hlen1, hlen2]
        simp [retryRecord, hfields.1, hfields.2]
      have hsum := eraseSeq_sum_mem st.inflight seq bytes hinv.inflight_nodup hmemI
      have hfresh : st.next_seq ∉ st.pending.map Prod.fst := by
        intro hc
        obtain ⟨p, hp, hpe⟩ := List.mem_map.mp hc
        have := hinv.pending_lt p hp
        omega
      refine ⟨?_, ?_, ?_, ?_, ?_, ?_, ?_, ?_, ?_⟩
      · show st.queue_bytes =
          sumLens (st.pending ++ [(st.next_seq, bytes2)]) +
            sumLens (eraseSeq st.inflight seq)
        rw [sumLens_append]
        have hb1 : sumLens [(st.next_seq, bytes2)] = bytes2.length := by simp [sumLens]
        rw [hb1]
        have := hinv.bytes_eq
        omega
      · exact hinv.bytes_le
      · show ((st.pending ++ [(st.next_seq, bytes2)]).map Prod.fst).Nodup
        rw [List.map_append]
        exact nodup_append_single hinv.pending_nodup hfresh
      · exact nodup_map_fst_erase st.inflight seq hinv.inflight_nodup
      · intro s hs
        rw [List.map_append] at hs
        intro hc
        have hin : s ∈ st.inflight.map Prod.fst :=
          eraseSeq_keys_subset st.inflight seq s hc
        rcases List.mem_append.mp hs with h2 | h2
        · exact hinv.disj s h2 hin
        · have : s = st.next_seq := by simpa using h2
          subst this
          obtain ⟨p, hp, hpe⟩ := List.mem_map.mp hin
          have := hinv.inflight_lt p hp
          omega
      · intro p hp
        rcases List.mem_append.mp hp with h2 | h2
        · have := hinv.pending_lt p h2
          show p.1 < st.next_seq + 1
          omega
        · have : p = (st.next_seq, bytes2) := by simpa using h2
          subst this
          show st.next_seq < st.next_seq + 1
          omega
      · intro p hp
        have := hinv.inflight_lt p (eraseSeq_subset st.inflight seq p hp)
        show p.1 < st.next_seq + 1
        omega
      · intro p hp
        rcases List.mem_append.mp hp with h2 | h2
        · exact hinv.pending_enc p h2
        · have : p = (st.next_seq, bytes2) := by simpa using h2
          subst this
          exact ⟨retryRecord rec sa att, he⟩
      · intro p hp
        exact hinv.inflight_enc p (eraseSeq_subset st.inflight seq p hp)

/-- C4: starting from the initialized queue, after every finite sequence
of `enqueue_record`, `claim_next`, `drop_inflight` and `requeue_inflight`
operations (as the writer and workers perform them, with one fixed byte
budget `M`), the persisted `queue_bytes` equals the sum of the stored
record lengths over `queue_pending` and `queue_inflight`.  The bound
`M ≤ 2^64 - 2` excludes saturation of the `u64` counter: with
`queue_max_bytes = u64::MAX` a saturated `saturating_add` could pass the
budget check while losing bytes from the account. -/
theorem claim_C4 (M : Nat) (st : QueueState) (hM : M ≤ 2 ^ 64 - 2)
    (hreach : Relation.ReflTransGen (QueueStep M) initQueueState st) :
    st.queue_bytes = sumLens st.pending + sumLens st.inflight := by
  have hinv : QInv M st := by
    induction hreach with
    | refl => exact QInv_init M
    | tail h1 h2 ih => exact QInv_step hM ih h2
  exact hinv.bytes_eq

theorem claim_C4_witness :
    (⟨[(0, encBytesC7)], [], 1, 21⟩ : QueueState).queue_bytes =
      sumLens (⟨[(0, encBytesC7)], [], 1, 21⟩ : QueueState).pending +
        sumLens (⟨[(0, encBytesC7)], [], 1, 21⟩ : QueueState).inflight :=
  claim_C4 1000 ⟨[(0, encBytesC7)], [], 1, 21⟩ (by norm_num)
    (Relation.ReflTransGen.single
      (QueueStep.enqueue_ok ⟨[97], [1, 2, 3], 5, 0⟩ (by rfl)))

/-!
## The fixed-window rate limiter (`src/rate_limiter.rs`)

One key is modelled; times are `Instant`s in nanoseconds.  The per-key
entry holds the window start and the count; `allow` with `limit = 0`
returns `true` without touching the map.
-/

/-- Window width: 60 seconds in nanoseconds (`Duration::from_secs(60)`). -/
def WINDOW : Nat := 60000000000

/-- Per-key limiter entry (`RateEntry`). -/
structure RLState where
  ws : Nat
  count : Nat
deriving Repr, DecidableEq

/-- One `RateLimiter::allow` call for the key at time `now`: create the
entry on first use, reset it when the window elapsed, then reject at the
limit or count the call.  `Instant::duration_since` saturates at zero,
which the `Nat` subtraction models. -/
def rlStep (limit : Nat) (st : Option RLState) (now : Nat) : Bool × Option RLState :=
  if limit = 0 then (true, st)
  else
    let e0 := st.getD ⟨now, 0⟩
    let e1 := if WINDOW ≤ now - e0.ws then RLState.mk now 0 else e0
    if limit ≤ e1.count then (false, some e1)
    else (true, some ⟨e1.ws, e1.count + 1⟩)

/-- Run of the limiter over a sequence of call times.  Each output entry
is `(time, accepted, window start after the call)`; the window-start
component instruments the trace for the proofs and carries `now` when no
entry exists (the `limit = 0` fast path). -/
def rlProc (limit : Nat) : Option RLState → List Nat → List (Nat × Bool × Nat)
  | _, [] => []
  | st, t :: ts =>
    ((t, (rlStep limit st t).1, ((rlStep limit st t).2.getD ⟨t, 0⟩).ws)) ::
      rlProc limit (rlStep limit st t).2 ts

/-- Accepted calls of a trace whose time falls in `[t0, t0 + WINDOW)`. -/
def rlCountWindow (tr : List (Nat × Bool × Nat)) (t0 : Nat) : Nat :=
  tr.countP (fun p => p.2.1 && decide (t0 ≤ p.1) && decide (p.1 < t0 + WINDOW))

/-- C8 (counterexample): with limit 2 and nondecreasing call times
`0, WINDOW - 1, WINDOW, WINDOW + 1` all four calls are accepted (the
fixed window resets at time `WINDOW`), so the 60-second window starting
at `WINDOW - 1` contains three accepted calls — more than the limit. -/
theorem claim_C8_counterexample :
    List.Pairwise (fun a b => a ≤ b) [0, WINDOW - 1, WINDOW, WINDOW + 1] ∧
      ¬ (∀ t0, rlCountWindow
          (rlProc 2 none [0, WINDOW - 1, WINDOW, WINDOW + 1]) t0 ≤ 2) := by
  constructor
  · decide
  · intro h
    have := h (WINDOW - 1)
    revert this
    decide


/-- Accepted calls of a trace whose recorded window start equals `w`. -/
def rlCountWs (tr : List (Nat × Bool × Nat)) (w : Nat) : Nat :=
  tr.countP (fun p => p.2.1 && (p.2.2 == w))
def wsCount (st : Option RLState) (w : Nat) : Nat :=
  match st with
  | some e => if e.ws = w then e.count else 0
  | none => 0

theorem rlStep_none (limit t : Nat) (hl : limit ≠ 0) :
    rlStep limit none t = (true, some ⟨t, 1⟩) := by
  rw [rlStep, if_neg hl]
  simp only [Option.getD_none]
  rw [if_neg (show ¬ WINDOW ≤ t - (RLState.mk t 0).ws from by simp [WINDOW])]
  rw [if_neg (show ¬ limit ≤ (RLState.mk t 0).count from by simp; omega)]

theorem rlStep_reset (limit t : Nat) (e : RLState) (hl : limit ≠ 0)
    (hreset : WINDOW ≤ t - e.ws) :
    rlStep limit (some e) t = (true, some ⟨t, 1⟩) := by
  rw [rlStep, if_neg hl]
  simp only [Option.getD_some]
  rw [if_pos hreset]
  rw [if_neg (show ¬ limit ≤ (RLState.mk t 0).count from by simp; omega)]

theorem rlStep_reject (limit t : Nat) (e : RLState) (hl : limit ≠ 0)
    (hreset : ¬ WINDOW ≤ t - e.ws) (hcap : limit ≤ e.count) :
    rlStep limit (some e) t = (false, some e) := by
  rw [rlStep, if_neg hl]
  simp only [Option.getD_some]
  rw [if_neg hreset]
  rw [if_pos hcap]

theorem rlStep_accept (limit t : Nat) (e : RLState) (hl : limit ≠ 0)
    (hreset : ¬ WINDOW ≤ t - e.ws) (hcap : ¬ limit ≤ e.count) :
    rlStep limit (some e) t = (true, some ⟨e.ws, e.count + 1⟩) := by
  rw [rlStep, if_neg hl]
  simp only [Option.getD_some]
  rw [if_neg hreset]
  rw [if_neg hcap]

theorem rlProc_cons_eq (limit : Nat) (st st2 : Option RLState) (b : Bool)
    (t w2 : Nat) (ts : List Nat) (hstep : rlStep limit st t = (b, st2))
    (hw2 : (st2.getD ⟨t, 0⟩).ws = w2) :
    rlProc limit st (t :: ts) = (t, b, w2) :: rlProc limit st2 ts := by
  rw [rlProc, hstep, hw2]

theorem rlCountWs_cons (t : Nat) (b : Bool) (ws w : Nat)
    (tr : List (Nat × Bool × Nat)) :
    rlCountWs ((t, b, ws) :: tr) w =
      rlCountWs tr w + (if b = true ∧ ws = w then 1 else 0) := by
  rw [rlCountWs, rlCountWs, List.countP_cons]
  congr 1
  by_cases hb : b = true <;> by_cases hw : ws = w <;> simp [hb, hw]

theorem WINDOW_pos : 0 < WINDOW := by decide

theorem rl_run_props (limit : Nat) (hl : limit ≠ 0) :
    ∀ (times : List Nat) (st : Option RLState),
      List.Pairwise (fun a b => a ≤ b) times →
      (∀ e, st = some e → ∀ t ∈ times, e.ws ≤ t) →
      (∀ p ∈ rlProc limit st times, p.2.1 = true →
          p.2.2 ≤ p.1 ∧ p.1 < p.2.2 + WINDOW)
        ∧ (∀ w, rlCountWs (rlProc limit st times) w ≤ limit - wsCount st w)
        ∧ (∀ e, st = some e → ∀ p ∈ rlProc limit st times,
            p.2.2 = e.ws ∨ e.ws + WINDOW ≤ p.2.2)
        ∧ (∀ p ∈ rlProc limit st times, ∀ q ∈ rlProc limit st times,
            p.2.2 < q.2.2 → p.2.2 + WINDOW ≤ q.2.2) := by
  intro times
  induction times with
  | nil =>
    intro st _ _
    refine ⟨by simp [rlProc], ?_, by simp [rlProc], by simp [rlProc]⟩
    intro w
    simp [rlProc, rlCountWs]
  | cons t ts ih =>
    intro st hsorted hws
    have ht : ∀ u ∈ ts, t ≤ u := (List.pairwise_cons.mp hsorted).1
    have hts : List.Pairwise (fun a b => a ≤ b) ts := (List.pairwise_cons.mp hsorted).2
    cases st with
    | none =>
      have hstep := rlStep_none limit t hl
      have hproc := rlProc_cons_eq limit none (some ⟨t, 1⟩) true t t ts hstep rfl
      have hnext : ∀ e2, (some (RLState.mk t 1)) = some e2 → ∀ u ∈ ts, e2.ws ≤ u := by
        intro e2 he2 u hu
        injection he2 with he2
        rw [← he2]
        exact ht u hu
      obtain ⟨ih1, ih2, ih3, ih4⟩ := ih (some ⟨t, 1⟩) hts hnext
      rw [hproc]
      refine ⟨?_, ?_, ?_, ?_⟩
      · intro p hp hacc
        rcases List.mem_cons.mp hp with h2 | h2
        · subst h2
          refine ⟨le_rfl, ?_⟩
          show t < t + WINDOW
          have := WINDOW_pos
          omega
        · exact ih1 p h2 hacc
      · intro w
        rw [rlCountWs_cons]
        have htail := ih2 w
        rw [show wsCount none w = 0 from rfl]
        by_cases hw : t = w
        · subst hw
          rw [show wsCount (some ⟨t, 1⟩) t = 1 from by simp [wsCount]] at htail
          rw [if_pos ⟨rfl, rfl⟩]
          omega
        · rw [show wsCount (some ⟨t, 1⟩) w = 0 from by simp [wsCount, hw]] at htail
          rw [if_neg (fun hc => hw hc.2)]
          omega
      · intro e2 he2
        cases he2
      · have hmk : (RLState.mk t 1).ws = t := rfl
        have hh : ((t, true, t) : Nat × Bool × Nat).2.2 = t := rfl
        intro p hp q hq hlt2
        rcases List.mem_cons.mp hp with h2 | h2 <;>
          rcases List.mem_cons.mp hq with h3 | h3
        · subst h2
          subst h3
          omega
        · subst h2
          rw [hh] at hlt2 ⊢
          rcases ih3 ⟨t, 1⟩ rfl q h3 with h4 | h4 <;> rw [hmk] at h4 <;> omega
        · subst h3
          exfalso
          rw [hh] at hlt2
          rcases ih3 ⟨t, 1⟩ rfl p h2 with h4 | h4 <;> rw [hmk] at h4 <;>
            have := WINDOW_pos <;> omega
        · exact ih4 p h2 q h3 hlt2
    | some e =>
      have hwse : e.ws ≤ t := hws e rfl t (List.mem_cons_self t ts)
      by_cases hreset : WINDOW ≤ t - e.ws
      · -- window elapsed: reset to a fresh window at `t`, accepted
        have hgap : e.ws + WINDOW ≤ t := by omega
        have hne : e.ws ≠ t := by have := WINDOW_pos; omega
        have hstep := rlStep_reset limit t e hl hreset
        have hproc := rlProc_cons_eq limit (some e) (some ⟨t, 1⟩) true t t ts hstep rfl
        have hnext : ∀ e2, (some (RLState.mk t 1)) = some e2 → ∀ u ∈ ts, e2.ws ≤ u := by
          intro e2 he2 u hu
          injection he2 with he2
          rw [← he2]
          exact ht u hu
        obtain ⟨ih1, ih2, ih3, ih4⟩ := ih (some ⟨t, 1⟩) hts hnext
        have hmk : (RLState.mk t 1).ws = t := rfl
        have hh : ((t, true, t) : Nat × Bool × Nat).2.2 = t := rfl
        have htail_ge : ∀ p ∈ rlProc limit (some ⟨t, 1⟩) ts, t ≤ p.2.2 := by
          intro p hp
          rcases ih3 ⟨t, 1⟩ rfl p hp with h4 | h4 <;> rw [hmk] at h4 <;> omega
        rw [hproc]
        refine ⟨?_, ?_, ?_, ?_⟩
        · intro p hp hacc
          rcases List.mem_cons.mp hp with h2 | h2
          · subst h2
            refine ⟨le_rfl, ?_⟩
            show t < t + WINDOW
            have := WINDOW_pos
            omega
          · exact ih1 p h2 hacc
        · intro w
          rw [rlCountWs_cons]
          have htail := ih2 w
          by_cases hw : t = w
          · subst hw
            rw [show wsCount (some ⟨t, 1⟩) t = 1 from by simp [wsCount]] at htail
            rw [show wsCount (some e) t = 0 from by simp [wsCount, hne]]
            rw [if_pos ⟨rfl, rfl⟩]
            omega
          · rw [if_neg (fun hc => hw hc.2)]
            by_cases hwe : w = e.ws
            · have hzero : rlCountWs (rlProc limit (some ⟨t, 1⟩) ts) w = 0 := by
                rw [rlCountWs, List.countP_eq_zero]
                intro p hp
                have := htail_ge p hp
                have hne2 : p.2.2 ≠ w := by omega
                simp [hne2]
              omega
            · have hne3 : e.ws ≠ w := fun hc => hwe hc.symm
              rw [show wsCount (some ⟨t, 1⟩) w = 0 from by simp [wsCount, hw]] at htail
              rw [show wsCount (some e) w = 0 from by simp [wsCount, hne3]]
              omega
        · intro e2 he2 p hp
          injection he2 with he2
          subst he2
          rcases List.mem_cons.mp hp with h2 | h2
          · subst h2
            right
            rw [hh]
            exact hgap
          · right
            have := htail_ge p h2
            omega
        · intro p hp q hq hlt2
          rcases List.mem_cons.mp hp with h2 | h2 <;>
            rcases List.mem_cons.mp hq with h3 | h3
          · subst h2
            subst h3
            omega
          · subst h2
            rw [hh] at hlt2 ⊢
            rcases ih3 ⟨t, 1⟩ rfl q h3 with h4 | h4 <;> rw [hmk] at h4 <;> omega
          · subst h3
            exfalso
            rw [hh] at hlt2
            have := htail_ge p h2
            omega
          · exact ih4 p h2 q h3 hlt2
      · have hlt3 : t < e.ws + WINDOW := by omega
        by_cases hcap : limit ≤ e.count
        · -- window still open and at the limit: rejected, state unchanged
          have hstep := rlStep_reject limit t e hl hreset hcap
          have hproc := rlProc_cons_eq limit (some e) (some e) false t e.ws ts hstep rfl
          have hnext : ∀ e2, (some e) = some e2 → ∀ u ∈ ts, e2.ws ≤ u := by
            intro e2 he2 u hu
            injection he2 with he2
            rw [← he2]
            exact hws e rfl u (List.mem_cons_of_mem t hu)
          obtain ⟨ih1, ih2, ih3, ih4⟩ := ih (some e) hts hnext
          have hh : ((t, false, e.ws) : Nat × Bool × Nat).2.2 = e.ws := rfl
          rw [hproc]
          refine ⟨?_, ?_, ?_, ?_⟩
          · intro p hp hacc
            rcases List.mem_cons.mp hp with h2 | h2
            · subst h2
              cases hacc
            · exact ih1 p h2 hacc
          · intro w
            rw [rlCountWs_cons]
            rw [if_neg (fun hc => by cases hc.1)]
            have := ih2 w
            omega
          · intro e2 he2 p hp
            injection he2 with he2
            subst he2
            rcases List.mem_cons.mp hp with h2 | h2
            · subst h2
              left
              rfl
            · exact ih3 e rfl p h2
          · intro p hp q hq hlt2
            rcases List.mem_cons.mp hp with h2 | h2 <;>
              rcases List.mem_cons.mp hq with h3 | h3
            · subst h2
              subst h3
              omega
            · subst h2
              rw [hh] at hlt2 ⊢
              rcases ih3 e rfl q h3 with h4 | h4 <;> omega
            · subst h3
              exfalso
              rw [hh] at hlt2
              rcases ih3 e rfl p h2 with h4 | h4 <;> have := WINDOW_pos <;> omega
            · exact ih4 p h2 q h3 hlt2
        · -- window still open, below the limit: accepted, count bumped
          have hstep := rlStep_accept limit t e hl hreset hcap
          have hproc := rlProc_cons_eq limit (some e) (some ⟨e.ws, e.count + 1⟩)
            true t e.ws ts hstep rfl
          have hnext : ∀ e2, (some (RLState.mk e.ws (e.count + 1))) = some e2 →
              ∀ u ∈ ts, e2.ws ≤ u := by
            intro e2 he2 u hu
            injection he2 with he2
            rw [← he2]
            exact hws e rfl u (List.mem_cons_of_mem t hu)
          obtain ⟨ih1, ih2, ih3, ih4⟩ := ih (some ⟨e.ws, e.count + 1⟩) hts hnext
          have hmk : (RLState.mk e.ws (e.count + 1)).ws = e.ws := rfl
          have hh : ((t, true, e.ws) : Nat × Bool × Nat).2.2 = e.ws := rfl
          rw [hproc]
          refine ⟨?_, ?_, ?_, ?_⟩
          · intro p hp hacc
            rcases List.mem_cons.mp hp with h2 | h2
            · subst h2
              exact ⟨hwse, hlt3⟩
            · exact ih1 p h2 hacc
          · intro w
            rw [rlCountWs_cons]
            have htail := ih2 w
            by_cases hw : e.ws = w
            · subst hw
              rw [show wsCount (some ⟨e.ws, e.count + 1⟩) e.ws = e.count + 1 from by
                simp [wsCount]] at htail
              rw [show wsCount (some e) e.ws = e.count from by simp [wsCount]]
              rw [if_pos ⟨rfl, rfl⟩]
              omega
            · rw [show wsCount (some ⟨e.ws, e.count + 1⟩) w = 0 from by
                simp [wsCount, hw]] at htail
              rw [show wsCount (some e) w = 0 from by simp [wsCount, hw]]
              rw [if_neg (fun hc => hw hc.2)]
              omega
          · intro e2 he2 p hp
            injection he2 with he2
            subst he2
            rcases List.mem_cons.mp hp with h2 | h2
            · subst h2
              left
              rfl
            · have := ih3 ⟨e.ws, e.count + 1⟩ rfl p h2
              rw [hmk] at this
              exact this
          · intro p hp q hq hlt2
            rcases List.mem_cons.mp hp with h2 | h2 <;>
              rcases List.mem_cons.mp hq with h3 | h3
            · subst h2
              subst h3
              omega
            · subst h2
              rw [hh] at hlt2 ⊢
              rcases ih3 ⟨e.ws, e.count + 1⟩ rfl q h3 with h4 | h4 <;>
                rw [hmk] at h4 <;> omega
            · subst h3
              exfalso
              rw [hh] at hlt2
              rcases ih3 ⟨e.ws, e.count + 1⟩ rfl p h2 with h4 | h4 <;>
                rw [hmk] at h4 <;> have := WINDOW_pos <;> omega
            · exact ih4 p h2 q h3 hlt2

/-- The trace entries that a window count `rlCountWindow tr t0` counts. -/
def rlWinEntries (tr : List (Nat × Bool × Nat)) (t0 : Nat) :
    List (Nat × Bool × Nat) :=
  tr.filter (fun p => p.2.1 && decide (t0 ≤ p.1) && decide (p.1 < t0 + WINDOW))

theorem rlCountWindow_eq (tr : List (Nat × Bool × Nat)) (t0 : Nat) :
    rlCountWindow tr t0 = ((rlWinEntries tr t0).map (fun p => p.2.2)).length := by
  rw [rlCountWindow, rlWinEntries, List.length_map, List.countP_eq_length_filter]

theorem two_vals_of_banded (S : List Nat) (t0 : Nat)
    (hval : ∀ y ∈ S, t0 < y + WINDOW ∧ y < t0 + WINDOW)
    (hgap : ∀ y ∈ S, ∀ z ∈ S, y < z → y + WINDOW ≤ z) :
    ∃ a b, ∀ y ∈ S, y = a ∨ y = b := by
  cases S with
  | nil => exact ⟨0, 0, by simp⟩
  | cons a rest =>
    by_cases hex : ∃ b ∈ a :: rest, b ≠ a
    · obtain ⟨b, hbS, hba⟩ := hex
      refine ⟨a, b, ?_⟩
      intro y hy
      by_contra hcon
      push_neg at hcon
      obtain ⟨hya, hyb⟩ := hcon
      have haS : a ∈ a :: rest := List.mem_cons_self a rest
      have Ba := hval a haS
      have Bb := hval b hbS
      have By := hval y hy
      have d1 : a + WINDOW ≤ b ∨ b + WINDOW ≤ a := by
        rcases Nat.lt_trichotomy a b with h | h | h
        · exact Or.inl (hgap a haS b hbS h)
        · exact absurd h.symm hba
        · exact Or.inr (hgap b hbS a haS h)
      have d2 : a + WINDOW ≤ y ∨ y + WINDOW ≤ a := by
        rcases Nat.lt_trichotomy a y with h | h | h
        · exact Or.inl (hgap a haS y hy h)
        · exact absurd h.symm hya
        · exact Or.inr (hgap y hy a haS h)
      have d3 : b + WINDOW ≤ y ∨ y + WINDOW ≤ b := by
        rcases Nat.lt_trichotomy b y with h | h | h
        · exact Or.inl (hgap b hbS y hy h)
        · exact absurd h.symm hyb
        · exact Or.inr (hgap y hy b hbS h)
      have hW := WINDOW_pos
      omega
    · push_neg at hex
      exact ⟨a, a, fun y hy => Or.inl (hex y hy)⟩

theorem length_le_two_countP (S : List Nat) (a b : Nat)
    (h : ∀ y ∈ S, y = a ∨ y = b) :
    S.length ≤ S.countP (fun y => decide (y = a))
      + S.countP (fun y => decide (y = b)) := by
  induction S with
  | nil => simp
  | cons x xs ih =>
    have hx := h x (List.mem_cons_self x xs)
    have htail := ih (fun y hy => h y (List.mem_cons_of_mem x hy))
    rw [List.countP_cons, List.countP_cons, List.length_cons]
    rcases hx with hx | hx <;> subst hx <;> simp <;> omega

theorem rlWin_countP_le (tr : List (Nat × Bool × Nat)) (t0 a : Nat) :
    ((rlWinEntries tr t0).map (fun p => p.2.2)).countP (fun y => decide (y = a))
      ≤ rlCountWs tr a := by
  rw [List.countP_map, rlWinEntries, List.countP_filter, rlCountWs]
  apply List.countP_mono_left
  intro p _ hcond
  simp only [Function.comp, Bool.and_eq_true, decide_eq_true_eq] at hcond
  obtain ⟨hpa, ⟨hacc, _⟩, _⟩ := hcond
  simp [hacc, hpa]

theorem rlWindow_bound (tr : List (Nat × Bool × Nat)) (limit t0 : Nat)
    (h1 : ∀ p ∈ tr, p.2.1 = true → p.2.2 ≤ p.1 ∧ p.1 < p.2.2 + WINDOW)
    (h2 : ∀ w, rlCountWs tr w ≤ limit)
    (h4 : ∀ p ∈ tr, ∀ q ∈ tr, p.2.2 < q.2.2 → p.2.2 + WINDOW ≤ q.2.2) :
    rlCountWindow tr t0 ≤ 2 * limit := by
  have hband : ∀ p ∈ rlWinEntries tr t0,
      t0 < p.2.2 + WINDOW ∧ p.2.2 < t0 + WINDOW := by
    intro p hp
    have hptr := List.mem_of_mem_filter hp
    have hP := List.of_mem_filter hp
    simp only [Bool.and_eq_true, decide_eq_true_eq] at hP
    obtain ⟨⟨hacc, hge⟩, hlt⟩ := hP
    obtain ⟨hle2, hlt2⟩ := h1 p hptr hacc
    constructor <;> omega
  have hvalS : ∀ y ∈ (rlWinEntries tr t0).map (fun p => p.2.2),
      t0 < y + WINDOW ∧ y < t0 + WINDOW := by
    intro y hy
    obtain ⟨p, hp, rfl⟩ := List.mem_map.mp hy
    exact hband p hp
  have hgapS : ∀ y ∈ (rlWinEntries tr t0).map (fun p => p.2.2),
      ∀ z ∈ (rlWinEntries tr t0).map (fun p => p.2.2), y < z → y + WINDOW ≤ z := by
    intro y hy z hz hlt
    obtain ⟨p, hp, rfl⟩ := List.mem_map.mp hy
    obtain ⟨q, hq, rfl⟩ := List.mem_map.mp hz
    exact h4 p (List.mem_of_mem_filter hp) q (List.mem_of_mem_filter hq) hlt
  obtain ⟨a, b, hab⟩ := two_vals_of_banded _ t0 hvalS hgapS
  have hlen := length_le_two_countP _ a b hab
  have hca := rlWin_countP_le tr t0 a
  have hcb := rlWin_countP_le tr t0 b
  have h2a := h2 a
  have h2b := h2 b
  rw [rlCountWindow_eq]
  omega

/-- C8 (amended): a key whose calls arrive at nondecreasing times is
accepted at most `2 * limit` times inside any sliding 60-second window
`[t0, t0 + WINDOW)`.  The fixed-window counter of `RateLimiter::allow`
does NOT bound a sliding window by `limit` (see the counterexample), but
consecutive fixed windows start at least `WINDOW` apart, so a sliding
window overlaps at most two of them. -/
theorem claim_C8_amended (limit : Nat) (times : List Nat) (t0 : Nat)
    (hl : limit ≠ 0) (hsorted : List.Pairwise (fun a b => a ≤ b) times) :
    rlCountWindow (rlProc limit none times) t0 ≤ 2 * limit := by
  obtain ⟨ih1, ih2, _, ih4⟩ :=
    rl_run_props limit hl times none hsorted (fun e he => by cases he)
  exact rlWindow_bound _ limit t0 ih1 (fun w => by simpa [wsCount] using ih2 w) ih4

/-- Witness: the amended bound applied to the counterexample trace. -/
theorem claim_C8_witness :
    rlCountWindow (rlProc 2 none [0, WINDOW - 1, WINDOW, WINDOW + 1])
      (WINDOW - 1) ≤ 2 * 2 :=
  claim_C8_amended 2 [0, WINDOW - 1, WINDOW, WINDOW + 1] (WINDOW - 1)
    (by decide) (by decide)

/-- `u8::to_ascii_lowercase`. -/
def toAsciiLower (b : Nat) : Nat := if 65 ≤ b ∧ b ≤ 90 then b + 32 else b

/-- `str::eq_ignore_ascii_case`: byte strings compare equal after ASCII
case folding (equal length is implied by the map comparison). -/
def eqIgnoreAsciiCase (a b : List Nat) : Bool :=
  a.map toAsciiLower == b.map toAsciiLower

/-- `host_allowed` from `handlers.rs`: an empty allow-list or a literal
`"*"` entry (byte 42) accepts every host; otherwise some entry must match
the host ASCII-case-insensitively. -/
def host_allowed (host : List Nat) (allowed_hosts : List (List Nat)) : Bool :=
  if allowed_hosts.isEmpty || allowed_hosts.any (fun item => item == [42]) then
    true
  else
    allowed_hosts.any (fun allowed => eqIgnoreAsciiCase allowed host)

/-- C10: if the allow-list is empty or contains `"*"`, `host_allowed`
accepts every host; otherwise it accepts exactly the hosts equal to some
list entry up to ASCII case — an empty allow-list disables filtering
rather than rejecting everything. -/
theorem claim_C10 (host : List Nat) (allowed_hosts : List (List Nat)) :
    ((allowed_hosts = [] ∨ [42] ∈ allowed_hosts) →
        host_allowed host allowed_hosts = true)
      ∧ (allowed_hosts ≠ [] → [42] ∉ allowed_hosts →
          (host_allowed host allowed_hosts = true ↔
            ∃ a ∈ allowed_hosts,
              a.map toAsciiLower = host.map toAsciiLower)) := by
  constructor
  · intro h
    unfold host_allowed
    rw [if_pos]
    rcases h with h | h
    · subst h
      simp
    · simp only [Bool.or_eq_true, List.any_eq_true]
      exact Or.inr ⟨[42], h, by simp⟩
  · intro hne hstar
    unfold host_allowed
    rw [if_neg]
    · simp only [List.any_eq_true, eqIgnoreAsciiCase, beq_iff_eq]
    · simp only [Bool.or_eq_true, List.any_eq_true, not_or]
      refine ⟨?_, ?_⟩
      · simp only [List.isEmpty_eq_true]
        exact hne
      · rintro ⟨item, hmem, heq⟩
        rw [beq_iff_eq] at heq
        subst heq
        exact hstar hmem

/-- Witness: the empty allow-list accepts host `"a"`, and the list
`["A"]` accepts `"a"` case-insensitively. -/
theorem claim_C10_witness :
    host_allowed [97] [] = true ∧ host_allowed [97] [[65]] = true := by
  constructor
  · exact (claim_C10 [97] []).1 (Or.inl rfl)
  · exact ((claim_C10 [97] [[65]]).2 (by decide) (by decide)).mpr
      ⟨[65], by decide, by decide⟩
